import Mathlib

set_option maxRecDepth 4000

/-!
Verification development for the wannier-berri core
(`src/wannierberri/system/w90_files.py` and `src/wannierberri/system/system.py`).

The Python code computes with IEEE floats and numpy arrays; here every
numeric value is embedded exactly:

* complex floats become `GQ` (complex numbers with rational components);
* real floats become `ℚ`;
* numpy 2-D arrays become `MatQ` (a shape-carrying matrix of `GQ` entries)
  when the shape itself is part of a claim, and `Fin`-indexed functions
  when it is not;
* comparisons of Euclidean norms (which involve a floating square root)
  are encoded by their exact algebraic equivalents on squared norms,
  e.g. `sqrt n > t  ↔  t < 0 ∨ t*t < n` for `n ≥ 0`;
* the two genuinely non-algebraic floating computations — the SVD
  pseudo-inverse solve in `MMN.set_bk` and `np.log(...).imag` in
  `CheckPoint.get_AABB_qb` — are modelled as explicit function
  parameters (`solve`, `argIm`), so every theorem quantifies over them;
* fallible code (Python `assert` / raised exceptions) returns `Except`.
-/

/-! ## Complex numbers with rational components -/

/-- A complex number with rational real and imaginary part, the exact
model of the complex values appearing in `w90_files.py`. -/
@[ext]
structure GQ where
  re : ℚ
  im : ℚ
deriving DecidableEq

namespace GQ

instance : Zero GQ := ⟨⟨0, 0⟩⟩
instance : One GQ := ⟨⟨1, 0⟩⟩
instance : Add GQ := ⟨fun a b => ⟨a.re + b.re, a.im + b.im⟩⟩
instance : Neg GQ := ⟨fun a => ⟨-a.re, -a.im⟩⟩
instance : Mul GQ := ⟨fun a b => ⟨a.re * b.re - a.im * b.im, a.re * b.im + a.im * b.re⟩⟩

@[simp] theorem zero_re : (0 : GQ).re = 0 := rfl
@[simp] theorem zero_im : (0 : GQ).im = 0 := rfl
@[simp] theorem one_re : (1 : GQ).re = 1 := rfl
@[simp] theorem one_im : (1 : GQ).im = 0 := rfl
@[simp] theorem add_re (a b : GQ) : (a + b).re = a.re + b.re := rfl
@[simp] theorem add_im (a b : GQ) : (a + b).im = a.im + b.im := rfl
@[simp] theorem neg_re (a : GQ) : (-a).re = -a.re := rfl
@[simp] theorem neg_im (a : GQ) : (-a).im = -a.im := rfl
@[simp] theorem mul_re (a b : GQ) : (a * b).re = a.re * b.re - a.im * b.im := rfl
@[simp] theorem mul_im (a b : GQ) : (a * b).im = a.re * b.im + a.im * b.re := rfl

instance : CommRing GQ where
  add_assoc a b c := by ext <;> simp <;> ring
  zero_add a := by ext <;> simp
  add_zero a := by ext <;> simp
  add_comm a b := by ext <;> simp <;> ring
  mul_assoc a b c := by ext <;> simp <;> ring
  one_mul a := by ext <;> simp
  mul_one a := by ext <;> simp
  left_distrib a b c := by ext <;> simp <;> ring
  right_distrib a b c := by ext <;> simp <;> ring
  mul_comm a b := by ext <;> simp <;> ring
  zero_mul a := by ext <;> simp
  mul_zero a := by ext <;> simp
  neg_add_cancel a := by ext <;> simp
  nsmul := nsmulRec
  zsmul := zsmulRec

/-- Embedding of a real (rational) scalar as a complex value. -/
def ofRat (q : ℚ) : GQ := ⟨q, 0⟩

/-- The imaginary unit, modelling the literal `1.j` of the Python source. -/
def I : GQ := ⟨0, 1⟩

/-- Complex conjugation, modelling numpy `.conj()`. -/
def conj (a : GQ) : GQ := ⟨a.re, -a.im⟩

@[simp] theorem conj_re (a : GQ) : (conj a).re = a.re := rfl
@[simp] theorem conj_im (a : GQ) : (conj a).im = -a.im := rfl

theorem conj_add (a b : GQ) : conj (a + b) = conj a + conj b := by
  ext <;> simp <;> ring

theorem conj_mul (a b : GQ) : conj (a * b) = conj a * conj b := by
  ext <;> simp <;> ring

theorem conj_conj (a : GQ) : conj (conj a) = a := by ext <;> simp

theorem conj_ofRat (q : ℚ) : conj (ofRat q) = ofRat q := by ext <;> simp [ofRat]

end GQ

instance {e a : Type} [DecidableEq e] [DecidableEq a] : DecidableEq (Except e a)
  | .ok x, .ok y => decidable_of_iff (x = y) ⟨congrArg Except.ok, Except.ok.inj⟩
  | .error x, .error y => decidable_of_iff (x = y) ⟨congrArg Except.error, Except.error.inj⟩
  | .ok _, .error _ => isFalse fun h => Except.noConfusion h
  | .error _, .ok _ => isFalse fun h => Except.noConfusion h

/-! ## Shape-carrying matrices of complex entries

A `MatQ` carries an explicit `rows`/`cols` pair (the numpy `shape`) and a
total entry function; entries outside the declared shape are junk, exactly
as the bytes outside a numpy view are.  This keeps array shape a provable
property rather than a typing artefact. -/

/-- A complex matrix with an explicit numpy-style shape. -/
structure MatQ where
  rows : ℕ
  cols : ℕ
  entry : ℕ → ℕ → GQ

/-- Matrix product, modelling `np.dot` / `np.tensordot` contraction of the
last axis of the first factor with the first axis of the second: the
contraction length is the column count of the left factor. -/
def matMul (A B : MatQ) : MatQ :=
  ⟨A.rows, B.cols, fun i j => ∑ k ∈ Finset.range A.cols, A.entry i k * B.entry k j⟩

/-- Entrywise complex conjugation of a matrix (numpy `.conj()`). -/
def conjM (A : MatQ) : MatQ := ⟨A.rows, A.cols, fun i j => GQ.conj (A.entry i j)⟩

/-- Matrix transpose (numpy `.T`). -/
def transposeM (A : MatQ) : MatQ := ⟨A.cols, A.rows, fun i j => A.entry j i⟩

/-- The slice `A[r1:r2, c1:c2]`, with numpy clamping of the slice bounds
to the array shape. -/
def sliceM (A : MatQ) (r1 r2 c1 c2 : ℕ) : MatQ :=
  ⟨min r2 A.rows - min r1 A.rows, min c2 A.cols - min c1 A.cols,
   fun i j => A.entry (r1 + i) (c1 + j)⟩

/-- The column slice `A[:, :n]` (used for `u_matrix_opt[:, :nd]`). -/
def sliceCols (A : MatQ) (n : ℕ) : MatQ :=
  ⟨A.rows, min n A.cols, fun i j => A.entry i j⟩

/-- Embeds `np.diag` of a 1-D array of length `n`. -/
def diagM (n : ℕ) (v : ℕ → GQ) : MatQ :=
  ⟨n, n, fun i j => if i = j then v i else 0⟩

/-- Hermiticity of the `n × n` leading block of a matrix. -/
def HermitianOn (n : ℕ) (A : MatQ) : Prop :=
  ∀ i < n, ∀ j < n, A.entry i j = GQ.conj (A.entry j i)

instance (n : ℕ) (A : MatQ) : Decidable (HermitianOn n A) := by
  unfold HermitianOn; infer_instance

/-! ## The checkpoint object and the gauge transformer

`CheckPoint` (w90_files.py lines 32-113): we embed the fields that the
gauge transformer reads, namely the dimensional attributes, the per-k
band-window bounds and the rotation matrices `v_matrix`. -/

/-- The slice of a `CheckPoint` object consumed by `wannier_gauge` and the
assembly routines: dimensions, band windows and rotation matrices.
Indices are raw naturals, mirroring the untyped numpy indexing. -/
structure ChkM where
  numKpts : ℕ
  numBands : ℕ
  numWann : ℕ
  winMin : ℕ → ℕ
  winMax : ℕ → ℕ
  vMatrix : ℕ → MatQ

/-- The argument of `CheckPoint.wannier_gauge`: either a 1-D array (an
eigenvalue row) or a 2-D matrix, mirroring the `len(mat.shape) == 1`
dispatch of the source. -/
inductive NDIn where
  | vec : ℕ → (ℕ → GQ) → NDIn
  | mat : MatQ → NDIn

/-- Embeds `CheckPoint.wannier_gauge` (w90_files.py lines 101-113): a 1-D
input is first replaced by `np.diag` of itself; the matrix is sliced to
the band windows of `ik1`/`ik2`, then contracted as
`v_matrix[ik1].conj() · M · v_matrix[ik2].T`.  The source `assert` that
the input is `NB × NB` appears as a hypothesis in the theorems.  Trailing
tensor axes of the Python version are not exercised by any claim, so the
embedding is at fixed 2-D arity (the contraction acts identically on each
trailing slice). -/
def wannier_gauge (chk : ChkM) (x : NDIn) (ik1 ik2 : ℕ) : MatQ :=
  let m0 := match x with
    | .vec n v => diagM n v
    | .mat m => m
  let m := sliceM m0 (chk.winMin ik1) (chk.winMax ik1) (chk.winMin ik2) (chk.winMax ik2)
  matMul (matMul (conjM (chk.vMatrix ik1)) m) (transposeM (chk.vMatrix ik2))

/-- The explicit symmetrization `0.5 * (X + X^H)` applied per k-point in
`get_HH_q` (line 118) and `get_SS_q` (line 123). -/
def symmetrize (X : MatQ) : MatQ :=
  ⟨X.rows, X.cols, fun i j => GQ.ofRat (1/2) * (X.entry i j + GQ.conj (X.entry j i))⟩

/-- Embeds `CheckPoint.get_HH_q` (lines 115-118) at one k-point: the
eigenvalue row enters `wannier_gauge` as a 1-D array and the result is
symmetrized.  The assert `(eig.NK, eig.NB) == (num_kpts, num_bands)`
appears as a hypothesis where needed. -/
def get_HH_q (chk : ChkM) (eigData : ℕ → ℕ → ℚ) (ik : ℕ) : MatQ :=
  symmetrize (wannier_gauge chk (.vec chk.numBands (fun b => GQ.ofRat (eigData ik b))) ik ik)

/-- C10: `wannier_gauge` accepts a one-dimensional input and treats it as
the corresponding diagonal matrix — for every vector `v` and all k-point
indices `ik1`, `ik2`, the result on the 1-D input equals the result on
`np.diag` of it.  This is the edge case that lets `get_HH_q` pass the
eigenvalue row directly. -/
theorem c10_wannier_gauge_vec_eq_diag (chk : ChkM) (n : ℕ) (v : ℕ → GQ) (ik1 ik2 : ℕ) :
    wannier_gauge chk (.vec n v) ik1 ik2 = wannier_gauge chk (.mat (diagM n v)) ik1 ik2 := rfl

/-- C5: for a checkpoint whose rotation matrix at `ik` has `NW` rows (its
stored orientation, see C4), applying `wannier_gauge` with `ik1 = ik2 = ik`
to a Hermitian `NB × NB` matrix and then the explicit symmetrization
`0.5 * (X + X^H)` of `get_HH_q`/`get_SS_q` yields a Hermitian `NW × NW`
output. -/
theorem c5_gauge_symmetrize_hermitian (chk : ChkM) (M : MatQ) (ik : ℕ)
    (hrows : M.rows = chk.numBands) (hcols : M.cols = chk.numBands)
    (hherm : HermitianOn chk.numBands M)
    (hv : (chk.vMatrix ik).rows = chk.numWann) :
    (symmetrize (wannier_gauge chk (.mat M) ik ik)).rows = chk.numWann ∧
    (symmetrize (wannier_gauge chk (.mat M) ik ik)).cols = chk.numWann ∧
    HermitianOn chk.numWann (symmetrize (wannier_gauge chk (.mat M) ik ik)) := by
  refine ⟨?_, ?_, ?_⟩
  · simpa [symmetrize, wannier_gauge, matMul, conjM, transposeM] using hv
  · simpa [symmetrize, wannier_gauge, matMul, conjM, transposeM] using hv
  · intro i _ j _
    simp only [symmetrize]
    rw [GQ.conj_mul, GQ.conj_add, GQ.conj_conj, GQ.conj_ofRat]
    ring

/-- Concrete witness data for C5: a 1-band, 1-wannier checkpoint with the
identity rotation. -/
def trivChk : ChkM :=
  ⟨1, 1, 1, fun _ => 0, fun _ => 1, fun _ => ⟨1, 1, fun _ _ => 1⟩⟩

/-- Concrete Hermitian input for the C5 witness. -/
def c5M : MatQ := ⟨1, 1, fun _ _ => ⟨3, 0⟩⟩

/-- Witness for C5 at a concrete 1×1 checkpoint and Hermitian input. -/
theorem c5_witness :
    (symmetrize (wannier_gauge trivChk (.mat c5M) 0 0)).rows = trivChk.numWann ∧
    (symmetrize (wannier_gauge trivChk (.mat c5M) 0 0)).cols = trivChk.numWann ∧
    HermitianOn trivChk.numWann (symmetrize (wannier_gauge trivChk (.mat c5M) 0 0)) :=
  c5_gauge_symmetrize_hermitian trivChk c5M 0 (by decide) (by decide)
    (by decide) (by decide)

/-! ## C4 — the shape of the stored rotation matrices

`CheckPoint.__init__` (lines 77-94): with disentanglement the stored
`v_matrix[ik]` is `u_matrix[ik].dot(u_matrix_opt[ik][:, :ndimwin[ik]])`,
i.e. a product of an `NW × NW` matrix with an `NW × nd` column slice. -/

/-- The inputs of the window/rotation part of `CheckPoint.__init__`
(lines 77-94), after the records have been read from the `.chk` file. -/
structure ChkInit where
  numKpts : ℕ
  numBands : ℕ
  numWann : ℕ
  haveDisentangled : Bool
  lwindow : ℕ → ℕ → Bool
  ndimwin : ℕ → ℕ
  uMatrix : ℕ → MatQ
  uMatrixOpt : ℕ → MatQ

/-- Embeds `np.where(mask)[0].min()` for a boolean mask of length `n`:
the first index at which the mask holds (`n` if it never does; the numpy
call would fail on an all-false mask, which no claim exercises). -/
def npWhereMin (p : ℕ → Bool) (n : ℕ) : ℕ := (List.range n).findIdx p

/-- Embeds `win_min` as computed at lines 83 / 86. -/
def chkWinMin (c : ChkInit) : ℕ → ℕ :=
  if c.haveDisentangled then fun ik => npWhereMin (c.lwindow ik) c.numBands
  else fun _ => 0

/-- Embeds `win_max` as computed at lines 84 / 87. -/
def chkWinMax (c : ChkInit) : ℕ → ℕ :=
  if c.haveDisentangled then fun ik => chkWinMin c ik + c.ndimwin ik
  else fun _ => c.numWann

/-- Embeds `v_matrix` as computed at lines 92 / 94:
`u.dot(u_opt[:, :nd])` when disentangled, else `u` itself. -/
def chkVMatrix (c : ChkInit) : ℕ → MatQ :=
  if c.haveDisentangled then
    fun ik => matMul (c.uMatrix ik) (sliceCols (c.uMatrixOpt ik) (c.ndimwin ik))
  else fun ik => c.uMatrix ik

/-- Concrete disentangled checkpoint input refuting the claimed
orientation of `v_matrix`: one k-point, two bands in the window
(`ndimwin = 2`), one Wannier function. -/
def c4input : ChkInit :=
  ⟨1, 2, 1, true, fun _ _ => true, fun _ => 2,
   fun _ => ⟨1, 1, fun _ _ => 1⟩, fun _ => ⟨1, 2, fun _ _ => 1⟩⟩

/-- Counterexample for C4: for the disentangled checkpoint `c4input`,
`win_max(0) - win_min(0) = 2` and `NW = 1`, but the stored `v_matrix[0]`
has shape `(1, 2)` — number of Wannier functions first — so the claimed
shape `(win_max - win_min, NW) = (2, 1)` is false. -/
theorem c4_counterexample :
    ¬ ((chkVMatrix c4input 0).rows = chkWinMax c4input 0 - chkWinMin c4input 0 ∧
       (chkVMatrix c4input 0).cols = c4input.numWann) := by
  decide

/-- C4 (amended): for every checkpoint input whose stored `u_matrix[ik]`
is `NW × NW` and whose `u_matrix_opt[ik]` has at least `ndimwin[ik]`
columns, the constructed `v_matrix[ik]` has shape
`(NW, win_max(ik) - win_min(ik))` — the transpose of the claimed order:
Wannier count first, bands-in-window second. -/
theorem c4_v_matrix_shape (c : ChkInit)
    (hu : ∀ ik, (c.uMatrix ik).rows = c.numWann ∧ (c.uMatrix ik).cols = c.numWann)
    (huo : ∀ ik, c.ndimwin ik ≤ (c.uMatrixOpt ik).cols) :
    ∀ ik, (chkVMatrix c ik).rows = c.numWann ∧
      (chkVMatrix c ik).cols = chkWinMax c ik - chkWinMin c ik := by
  intro ik
  unfold chkVMatrix chkWinMax chkWinMin
  by_cases h : c.haveDisentangled
  · simp only [h, if_true, matMul, sliceCols]
    exact ⟨(hu ik).1, by have := huo ik; omega⟩
  · simp only [h, if_false, Bool.false_eq_true]
    exact ⟨(hu ik).1, by have := (hu ik).2; omega⟩

/-- Witness for the amended C4 at the concrete input `c4input`. -/
theorem c4_witness :
    (chkVMatrix c4input 0).rows = c4input.numWann ∧
    (chkVMatrix c4input 0).cols = chkWinMax c4input 0 - chkWinMin c4input 0 :=
  c4_v_matrix_shape c4input (fun _ => ⟨rfl, rfl⟩) (fun _ => Nat.le.refl) 0

/-! ## Scatter-versus-sum over the unique-neighbour axis

`get_AABB_qb` (lines 135-162) either accumulates the per-neighbour term
into `AA_qb[ik]` (`sum_b=True`) or scatters it into the unique-neighbour
axis with the numpy assignment `AA_qb[ik, :, :, ib_unique, :] = ...`,
whose semantics is last-write-wins. -/

/-- Last-write-wins scatter of per-slot terms along a slot-to-index map:
the value at index `j` after executing, in slot order, the numpy
assignments `out[map ib] = term ib` over a zero-initialised array. -/
def scatterFold {α : Type} [Zero α] {n : ℕ} (mp : Fin n → Fin n)
    (term : Fin n → α) (j : Fin n) : α :=
  (List.finRange n).foldl (fun acc ib => if mp ib = j then term ib else acc) 0

theorem foldl_write_of_none {ι κ α : Type} [DecidableEq κ] (g : ι → κ) (j : κ)
    (f : ι → α) : ∀ (l : List ι) (a : α), (∀ i ∈ l, g i ≠ j) →
    l.foldl (fun acc i => if g i = j then f i else acc) a = a := by
  intro l
  induction l with
  | nil => intro a _; rfl
  | cons x t ih =>
    intro a h
    have hx : g x ≠ j := h x (List.mem_cons_self x t)
    simp only [List.foldl_cons, if_neg hx]
    exact ih a (fun i hi => h i (List.mem_cons_of_mem x hi))

theorem foldl_write_of_mem {ι κ α : Type} [DecidableEq ι] [DecidableEq κ]
    (g : ι → κ) (f : ι → α) (ib : ι) :
    ∀ (l : List ι) (a : α), ib ∈ l → (∀ i ∈ l, g i = g ib → i = ib) →
    l.foldl (fun acc i => if g i = g ib then f i else acc) a = f ib := by
  intro l
  induction l with
  | nil => intro a h; exact absurd h (List.not_mem_nil ib)
  | cons x t ih =>
    intro a hmem huniq
    by_cases hx : x = ib
    · subst hx
      simp only [List.foldl_cons, if_pos rfl]
      by_cases ht : x ∈ t
      · exact ih (f x) ht (fun i hi h => huniq i (List.mem_cons_of_mem x hi) h)
      · exact foldl_write_of_none g (g x) f t (f x)
          (fun i hi h => ht ((huniq i (List.mem_cons_of_mem x hi) h) ▸ hi))
    · have hgx : g x ≠ g ib := fun h => hx (huniq x (List.mem_cons_self x t) h)
      simp only [List.foldl_cons, if_neg hgx]
      have hmt : ib ∈ t := by
        rcases List.mem_cons.mp hmem with h | h
        · exact absurd h.symm hx
        · exact h
      exact ih a hmt (fun i hi h => huniq i (List.mem_cons_of_mem x hi) h)

theorem scatterFold_apply {α : Type} [Zero α] {n : ℕ} (mp : Fin n → Fin n)
    (hinj : Function.Injective mp) (term : Fin n → α) (ib : Fin n) :
    scatterFold mp term (mp ib) = term ib :=
  foldl_write_of_mem mp term ib (List.finRange n) 0 (List.mem_finRange ib)
    (fun _ _ h => hinj h)

theorem scatterFold_sum {α : Type} [AddCommMonoid α] {n : ℕ}
    (mp : Fin n → Fin n) (hinj : Function.Injective mp) (term : Fin n → α) :
    ∑ j : Fin n, scatterFold mp term j = ∑ ib : Fin n, term ib := by
  have hbij : Function.Bijective mp := Finite.injective_iff_bijective.mp hinj
  calc ∑ j : Fin n, scatterFold mp term j
      = ∑ ib : Fin n, scatterFold mp term (mp ib) := (hbij.sum_comp _).symm
    _ = ∑ ib : Fin n, term ib :=
        Finset.sum_congr rfl (fun ib _ => scatterFold_apply mp hinj term ib)

/-! ## The MMN object after `set_bk`, and `get_AABB_qb` -/

/-- The fields of an `MMN` object consumed by `get_AABB_qb`: per-(k,
neighbour) overlap blocks, neighbour k-indices, finite-difference weights
`wk`, Cartesian b-vectors `bk_cart` and the unique-b index map
`ib_unique_map` produced by `set_bk` (whose values are provably below
`NNB`, hence typed `Fin NNB`). -/
structure MMNg (NK NNB : ℕ) where
  data : Fin NK → Fin NNB → MatQ
  neighbours : Fin NK → Fin NNB → Fin NK
  wk : Fin NK → Fin NNB → ℚ
  bkCart : Fin NK → Fin NNB → Fin 3 → ℚ
  ibUniqueMap : Fin NK → Fin NNB → Fin NNB

/-- The per-(ik, ib) term `AA_q_ik_ib[w1, w2, a]` of `get_AABB_qb`
(lines 141-157): optional eigenvalue row-weighting of the overlap block,
gauge transformation, multiplication by `1j * wk * bk_cart`, optional
Marzari-Vanderbilt overwrite of the band-diagonal entries (`argIm` models
the floating `np.log(...).imag`), and optional phase multiplication at
the unique-neighbour slot. -/
def AABBterm (chk : ChkM) {NK NNB : ℕ} (mmn : MMNg NK NNB) (translInv : Bool)
    (eig : Option (Fin NK → ℕ → ℚ)) (phase : Option (ℕ → ℕ → Fin NNB → GQ))
    (argIm : GQ → ℚ) (ik : Fin NK) (ib : Fin NNB) (w1 w2 : ℕ) (a : Fin 3) : GQ :=
  let d0 := mmn.data ik ib
  let d : MatQ := match eig with
    | none => d0
    | some e => ⟨d0.rows, d0.cols, fun m n => GQ.ofRat (e ik m) * d0.entry m n⟩
  let AAW := wannier_gauge chk (.mat d) ik (mmn.neighbours ik ib)
  let base : GQ :=
    if translInv = true ∧ w1 = w2 ∧ w1 < chk.numWann then
      GQ.ofRat (-(argIm (AAW.entry w1 w1)) * mmn.wk ik ib * mmn.bkCart ik ib a)
    else
      GQ.I * AAW.entry w1 w2 * GQ.ofRat (mmn.wk ik ib) * GQ.ofRat (mmn.bkCart ik ib a)
  match phase with
  | none => base
  | some p => base * p w1 w2 (mmn.ibUniqueMap ik ib)

/-- Embeds `get_AABB_qb` with `sum_b=False` (lines 135-162): the entry assert
`(not transl_inv) or eig is None`, then the scatter of the per-neighbour
terms into the unique-neighbour axis. -/
def get_AABB_qb_noSum (chk : ChkM) {NK NNB : ℕ} (mmn : MMNg NK NNB)
    (translInv : Bool) (eig : Option (Fin NK → ℕ → ℚ))
    (phase : Option (ℕ → ℕ → Fin NNB → GQ)) (argIm : GQ → ℚ) :
    Except Unit (Fin NK → ℕ → ℕ → Fin NNB → Fin 3 → GQ) :=
  if translInv = true ∧ eig.isSome = true then .error () else
  .ok fun ik w1 w2 jb a =>
    scatterFold (mmn.ibUniqueMap ik)
      (fun ib => AABBterm chk mmn translInv eig phase argIm ik ib w1 w2 a) jb

/-- Embeds `get_AABB_qb` with `sum_b=True` (lines 135-162): same entry assert,
then accumulation of the per-neighbour terms into `AA_qb[ik]`. -/
def get_AABB_qb_sum (chk : ChkM) {NK NNB : ℕ} (mmn : MMNg NK NNB)
    (translInv : Bool) (eig : Option (Fin NK → ℕ → ℚ))
    (phase : Option (ℕ → ℕ → Fin NNB → GQ)) (argIm : GQ → ℚ) :
    Except Unit (Fin NK → ℕ → ℕ → Fin 3 → GQ) :=
  if translInv = true ∧ eig.isSome = true then .error () else
  .ok fun ik w1 w2 a =>
    ∑ ib : Fin NNB, AABBterm chk mmn translInv eig phase argIm ik ib w1 w2 a

/-- Embeds `get_AA_qb` (lines 168-169) with `sum_b=False`: `get_AABB_qb` with no
eigenvalue weighting. -/
def get_AA_qb_noSum (chk : ChkM) {NK NNB : ℕ} (mmn : MMNg NK NNB)
    (translInv : Bool) (phase : Option (ℕ → ℕ → Fin NNB → GQ)) (argIm : GQ → ℚ) :
    Except Unit (Fin NK → ℕ → ℕ → Fin NNB → Fin 3 → GQ) :=
  get_AABB_qb_noSum chk mmn translInv none phase argIm

/-- Embeds `get_AA_qb` (lines 168-169) with `sum_b=True`. -/
def get_AA_qb_sum (chk : ChkM) {NK NNB : ℕ} (mmn : MMNg NK NNB)
    (translInv : Bool) (phase : Option (ℕ → ℕ → Fin NNB → GQ)) (argIm : GQ → ℚ) :
    Except Unit (Fin NK → ℕ → ℕ → Fin 3 → GQ) :=
  get_AABB_qb_sum chk mmn translInv none phase argIm

/-- A degenerate `MMN` object whose `ib_unique_map` sends both neighbour
slots of the single k-point to unique index 0 (such objects survive
`set_bk`, see the C9 counterexample). -/
def mmnC2 : MMNg 1 2 :=
  ⟨fun _ _ => ⟨1, 1, fun _ _ => 1⟩, fun _ _ => 0, fun _ _ => 1,
   fun _ _ _ => 1, fun _ _ => 0⟩

unseal Rat.add Rat.mul Rat.inv Rat.sub in
/-- Counterexample for C2: for the degenerate overlap object `mmnC2`
(valid dimensions, but a non-injective unique-index map), `get_AA_qb`
with `sum_b=True` accumulates both neighbour terms while the
`sum_b=False` scatter overwrites one of them, so summing the latter over
the neighbour axis does not reproduce the former. -/
theorem c2_counterexample :
    ∃ fsum fkeep,
      get_AA_qb_sum trivChk mmnC2 false none (fun _ => 0) = .ok fsum ∧
      get_AA_qb_noSum trivChk mmnC2 false none (fun _ => 0) = .ok fkeep ∧
      fsum 0 0 0 0 ≠ ∑ j : Fin 2, fkeep 0 0 0 j 0 := by
  refine ⟨_, _, rfl, rfl, ?_⟩
  decide

/-- C2 (amended): for every checkpoint and overlap object whose
unique-index map is injective at every k-point (as `set_bk` guarantees
for non-degenerate neighbour lists), and for every choice of the
`transl_inv`, `eig` and `phase` arguments, `get_AABB_qb` with `sum_b=True`
returns exactly the `sum_b=False` result summed over the unique-neighbour
axis — including the case where both calls reject `transl_inv` together
with eigenvalue weighting. -/
theorem c2_sum_b_consistency (chk : ChkM) {NK NNB : ℕ} (mmn : MMNg NK NNB)
    (translInv : Bool) (eig : Option (Fin NK → ℕ → ℚ))
    (phase : Option (ℕ → ℕ → Fin NNB → GQ)) (argIm : GQ → ℚ)
    (hinj : ∀ ik, Function.Injective (mmn.ibUniqueMap ik)) :
    get_AABB_qb_sum chk mmn translInv eig phase argIm =
      Except.map (fun f => fun ik w1 w2 a => ∑ j : Fin NNB, f ik w1 w2 j a)
        (get_AABB_qb_noSum chk mmn translInv eig phase argIm) := by
  unfold get_AABB_qb_sum get_AABB_qb_noSum
  by_cases h : translInv = true ∧ eig.isSome = true
  · rw [if_pos h, if_pos h]; rfl
  · rw [if_neg h, if_neg h]
    simp only [Except.map]
    congr 1
    funext ik w1 w2 a
    exact (scatterFold_sum (mmn.ibUniqueMap ik) (hinj ik) _).symm

/-- A well-formed `MMN` object with the identity unique-index map, for
the C2 and C7 witnesses. -/
def mmnW : MMNg 1 2 :=
  ⟨fun _ _ => ⟨1, 1, fun _ _ => 1⟩, fun _ _ => 0, fun _ _ => 1,
   fun _ _ _ => 1, fun _ ib => ib⟩

/-- Witness for the amended C2 at a concrete checkpoint and overlap
object with an injective unique-index map. -/
theorem c2_witness :
    get_AABB_qb_sum trivChk mmnW false none none (fun _ => 0) =
      Except.map (fun f => fun ik w1 w2 a => ∑ j : Fin 2, f ik w1 w2 j a)
        (get_AABB_qb_noSum trivChk mmnW false none none (fun _ => 0)) :=
  c2_sum_b_consistency trivChk mmnW false none none (fun _ => 0)
    (by decide)

/-- C7: `get_AABB_qb` rejects the combination `transl_inv=True` with
eigenvalue weighting before producing any tensor, and with
`transl_inv=True` and `eig=None` it succeeds and sets the band-diagonal
entries at each (k, neighbour) slot to the log-based Marzari-Vanderbilt
value `-log(AAW.diagonal()).imag * wk * bk_cart` (the floating
`np.log(...).imag` being the `argIm` parameter). -/
theorem c7_transl_inv_eig_reject (chk : ChkM) {NK NNB : ℕ} (mmn : MMNg NK NNB)
    (eigD : Fin NK → ℕ → ℚ) (phase : Option (ℕ → ℕ → Fin NNB → GQ))
    (argIm : GQ → ℚ)
    (hinj : ∀ ik, Function.Injective (mmn.ibUniqueMap ik))
    (ik : Fin NK) (ib : Fin NNB) (w : ℕ) (hw : w < chk.numWann) (a : Fin 3) :
    get_AABB_qb_noSum chk mmn true (some eigD) phase argIm = .error () ∧
    ∃ f, get_AABB_qb_noSum chk mmn true none none argIm = .ok f ∧
      f ik w w (mmn.ibUniqueMap ik ib) a =
        GQ.ofRat (-(argIm ((wannier_gauge chk (.mat (mmn.data ik ib)) ik
            (mmn.neighbours ik ib)).entry w w)) * mmn.wk ik ib * mmn.bkCart ik ib a) := by
  constructor
  · unfold get_AABB_qb_noSum
    rw [if_pos ⟨rfl, rfl⟩]
  · refine ⟨_, by unfold get_AABB_qb_noSum; rw [if_neg (by simp)], ?_⟩
    rw [scatterFold_apply (mmn.ibUniqueMap ik) (hinj ik) _ ib]
    simp [AABBterm, hw]

/-- Witness for C7 at a concrete checkpoint and overlap object. -/
theorem c7_witness :
    get_AABB_qb_noSum trivChk mmnW true (some (fun _ _ => 0)) none (fun _ => 1) = .error () ∧
    ∃ f, get_AABB_qb_noSum trivChk mmnW true none none (fun _ => 1) = .ok f ∧
      f 0 0 0 (mmnW.ibUniqueMap 0 0) 0 =
        GQ.ofRat (-((fun _ => 1) ((wannier_gauge trivChk (.mat (mmnW.data 0 0)) 0
            (mmnW.neighbours 0 0)).entry 0 0)) * mmnW.wk 0 0 * mmnW.bkCart 0 0 0) :=
  c7_transl_inv_eig_reject trivChk mmnW (fun _ _ => 0) none (fun _ => 1)
    (by decide) 0 0 0 (by decide) 0

/-! ## Python/numpy rounding and list maxima -/

/-- Python / numpy round-half-to-even, the semantics of both
`round(...)` (CPython) and `np.round` / `np.rint`. -/
def pyRound (q : ℚ) : ℤ :=
  let f := ⌊q⌋
  let r := q - (f : ℚ)
  if r < 1/2 then f
  else if 1/2 < r then f + 1
  else if f % 2 = 0 then f else f + 1

theorem pyRound_intCast (z : ℤ) : pyRound (z : ℚ) = z := by
  unfold pyRound
  simp only [Int.floor_intCast, sub_self]
  norm_num

theorem pyRound_natCast (n : ℕ) : pyRound (n : ℚ) = (n : ℤ) := by
  have : ((n : ℤ) : ℚ) = (n : ℚ) := by push_cast; ring
  rw [← this, pyRound_intCast]

/-- Models `.max()` of a numpy 1-D array presented as a list (junk 0 on the
empty array, where numpy would raise). -/
def npMax (l : List ℚ) : ℚ :=
  match l with
  | [] => 0
  | a :: t => t.foldl max a

theorem foldl_max_le (t : List ℚ) : ∀ (a m : ℚ), a ≤ m → (∀ x ∈ t, x ≤ m) →
    t.foldl max a ≤ m := by
  induction t with
  | nil => intro a m ha _; exact ha
  | cons x s ih =>
    intro a m ha hall
    exact ih (max a x) m (max_le ha (hall x (List.mem_cons_self x s)))
      (fun y hy => hall y (List.mem_cons_of_mem x hy))

theorem le_foldl_max (t : List ℚ) : ∀ (a : ℚ), a ≤ t.foldl max a := by
  induction t with
  | nil => intro a; exact le_refl a
  | cons x s ih =>
    intro a
    exact le_trans (le_max_left a x) (ih (max a x))

theorem mem_le_foldl_max (t : List ℚ) : ∀ (a x : ℚ), x ∈ t → x ≤ t.foldl max a := by
  induction t with
  | nil => intro a x hx; exact absurd hx (List.not_mem_nil x)
  | cons y s ih =>
    intro a x hx
    rcases List.mem_cons.mp hx with h | h
    · subst h; exact le_trans (le_max_right a x) (le_foldl_max s (max a x))
    · exact ih (max a y) x h

/-- If `m` is an element of `l` and dominates every element, then it is
the numpy maximum of `l`. -/
theorem npMax_eq (l : List ℚ) (m : ℚ) (hm : m ∈ l) (hall : ∀ x ∈ l, x ≤ m) :
    npMax l = m := by
  cases l with
  | nil => exact absurd hm (List.not_mem_nil m)
  | cons a t =>
    unfold npMax
    refine le_antisymm (foldl_max_le t a m (hall a (List.mem_cons_self a t))
      (fun x hx => hall x (List.mem_cons_of_mem a hx))) ?_
    rcases List.mem_cons.mp hm with h | h
    · subst h; exact le_foldl_max t m
    · exact mem_le_foldl_max t a m h

/-! ## C6 — the eigenvalue file reader

`EIG.from_w90_file` (w90_files.py lines 728-735): each text row carries
`(band index, k index, energy)`; `NB`/`NK` are the rounded column maxima;
after `reshape(NK, NB, 3)` the two index columns must equal their
1-based positional values up to a Frobenius norm of `1e-15` (encoded
exactly as squared norm `< 1e-30`). -/

/-- One row of the `.eig` file: explicit 1-based band and k indices and
the energy, all parsed as floats by `np.loadtxt`. -/
structure EigRow where
  bandIdx : ℚ
  kIdx : ℚ
  energy : ℚ
deriving DecidableEq

/-- Squared deviation of the band-index column from its positional value,
i.e. the square of `np.linalg.norm(data[:, :, 0] - 1 - np.arange(NB))`. -/
def eigBandDevSq (rows : List EigRow) (NB : ℕ) : ℚ :=
  ∑ r ∈ Finset.range rows.length,
    ((rows.getD r ⟨0, 0, 0⟩).bandIdx - 1 - ((r % NB : ℕ) : ℚ))^2

/-- Squared deviation of the k-index column from its positional value. -/
def eigKDevSq (rows : List EigRow) (NB : ℕ) : ℚ :=
  ∑ r ∈ Finset.range rows.length,
    ((rows.getD r ⟨0, 0, 0⟩).kIdx - 1 - ((r / NB : ℕ) : ℚ))^2

/-- The output of `EIG.from_w90_file`: the dimensions and the energy
array `data[ik, ib]`. -/
structure EigOut where
  NB : ℕ
  NK : ℕ
  dat : ℕ → ℕ → ℚ

/-- Failure modes of `EIG.from_w90_file`: a `reshape` size mismatch, or
one of the two index-consistency asserts. -/
inductive EigErr where
  | reshape
  | bandIdx
  | kIdx
deriving DecidableEq

/-- Embeds `NB = int(round(data[:, 0].max()))` (line 730). -/
def eigNB (rows : List EigRow) : ℕ := (pyRound (npMax (rows.map (·.bandIdx)))).toNat

/-- Embeds `NK = int(round(data[:, 1].max()))` (line 731). -/
def eigNK (rows : List EigRow) : ℕ := (pyRound (npMax (rows.map (·.kIdx)))).toNat

/-- Embeds `EIG.from_w90_file` (lines 728-735): `NB`/`NK` from the
rounded column maxima, the reshape size check, the two positional-index
asserts (squared-norm form of the `1e-15` comparison), and the energy
column of the reshaped array. -/
def eigFromFile (rows : List EigRow) : Except EigErr EigOut :=
  if rows.length = eigNK rows * eigNB rows then
    if eigBandDevSq rows (eigNB rows) < 1 / 10 ^ 30 then
      if eigKDevSq rows (eigNB rows) < 1 / 10 ^ 30 then
        .ok ⟨eigNB rows, eigNK rows,
            fun ik ib => (rows.getD (ik * eigNB rows + ib) ⟨0, 0, 0⟩).energy⟩
      else .error .kIdx
    else .error .bandIdx
  else .error .reshape

/-- The rows' explicit 1-based indices all equal their positional values
for band count `NB`. -/
def EigPositional (rows : List EigRow) (NB : ℕ) : Prop :=
  ∀ r (h : r < rows.length),
    (rows.get ⟨r, h⟩).bandIdx = ((r % NB : ℕ) : ℚ) + 1 ∧
    (rows.get ⟨r, h⟩).kIdx = ((r / NB : ℕ) : ℚ) + 1

instance (rows : List EigRow) (NB : ℕ) : Decidable (EigPositional rows NB) := by
  unfold EigPositional; infer_instance

/-- The two index columns hold integers (as every well-formed `.eig`
file's index fields do). -/
def EigIntIndexed (rows : List EigRow) : Prop :=
  ∀ x ∈ rows, (∃ z : ℤ, x.bandIdx = (z : ℚ)) ∧ (∃ z : ℤ, x.kIdx = (z : ℚ))

theorem intCast_sq_lt_one {z : ℤ} (h : ((z : ℚ))^2 < 1) : z = 0 := by
  by_contra hz
  rcases lt_or_gt_of_ne hz with h1 | h1
  · have : (z : ℚ) ≤ -1 := by exact_mod_cast Int.le_sub_one_of_lt h1
    nlinarith
  · have : (1 : ℚ) ≤ (z : ℚ) := by exact_mod_cast h1
    nlinarith

theorem getD_eq_get {α : Type} (l : List α) (d : α) {n : ℕ} (h : n < l.length) :
    l.getD n d = l.get ⟨n, h⟩ := by
  simp [List.getD_eq_getElem?_getD, List.getElem?_eq_getElem h]

theorem eig_npMax_band (rows : List EigRow) (NB0 NK0 : ℕ)
    (h1 : 1 ≤ NB0) (h2 : 1 ≤ NK0) (hlen : rows.length = NK0 * NB0)
    (hpos : EigPositional rows NB0) :
    npMax (rows.map (·.bandIdx)) = (NB0 : ℚ) := by
  apply npMax_eq
  · have hr0 : NB0 - 1 < rows.length := by
      rw [hlen]; have := Nat.le_mul_of_pos_left NB0 h2; omega
    refine List.mem_map.mpr ⟨rows.get ⟨NB0 - 1, hr0⟩, List.get_mem rows (NB0 - 1) hr0, ?_⟩
    have := (hpos (NB0 - 1) hr0).1
    rw [this, Nat.mod_eq_of_lt (by omega)]
    push_cast [Nat.cast_sub h1]
    ring
  · intro x hx
    obtain ⟨row, hrow, hval⟩ := List.mem_map.mp hx
    obtain ⟨⟨r, hr⟩, hget⟩ := List.mem_iff_get.mp hrow
    subst hget
    rw [← hval, (hpos r hr).1]
    have hmod : r % NB0 + 1 ≤ NB0 := Nat.mod_lt r (by omega)
    exact_mod_cast hmod

theorem eig_npMax_k (rows : List EigRow) (NB0 NK0 : ℕ)
    (h1 : 1 ≤ NB0) (h2 : 1 ≤ NK0) (hlen : rows.length = NK0 * NB0)
    (hpos : EigPositional rows NB0) :
    npMax (rows.map (·.kIdx)) = (NK0 : ℚ) := by
  apply npMax_eq
  · have hr0 : (NK0 - 1) * NB0 < rows.length := by
      rw [hlen]
      exact Nat.mul_lt_mul_of_lt_of_le (by omega) (le_refl NB0) (by omega)
    refine List.mem_map.mpr
      ⟨rows.get ⟨(NK0 - 1) * NB0, hr0⟩, List.get_mem rows ((NK0 - 1) * NB0) hr0, ?_⟩
    have := (hpos ((NK0 - 1) * NB0) hr0).2
    rw [this, Nat.mul_div_cancel _ (by omega : 0 < NB0)]
    push_cast [Nat.cast_sub h2]
    ring
  · intro x hx
    obtain ⟨row, hrow, hval⟩ := List.mem_map.mp hx
    obtain ⟨⟨r, hr⟩, hget⟩ := List.mem_iff_get.mp hrow
    subst hget
    rw [← hval, (hpos r hr).2]
    have hdiv : r / NB0 + 1 ≤ NK0 := by
      have : r / NB0 < NK0 := Nat.div_lt_of_lt_mul (by rw [Nat.mul_comm, ← hlen]; exact hr)
      omega
    exact_mod_cast hdiv

theorem eigScanB (rows : List EigRow) (out : EigOut) (hint : EigIntIndexed rows)
    (hlen : rows.length = eigNK rows * eigNB rows)
    (hband : eigBandDevSq rows (eigNB rows) < 1 / 10 ^ 30)
    (hk : eigKDevSq rows (eigNB rows) < 1 / 10 ^ 30)
    (hok : Except.ok
        ({ NB := eigNB rows, NK := eigNK rows,
           dat := fun ik ib =>
             (rows.getD (ik * eigNB rows + ib) ⟨0, 0, 0⟩).energy } : EigOut)
      = (Except.ok out : Except EigErr EigOut)) :
    EigPositional rows out.NB := by
  have hout : out.NB = eigNB rows := by
    have h := Except.ok.inj hok
    rw [← h]
  intro r hrl
  obtain ⟨⟨zb, hzb⟩, ⟨zk, hzk⟩⟩ := hint (rows.get ⟨r, hrl⟩) (List.get_mem rows r hrl)
  have hterm_b : ((rows.get ⟨r, hrl⟩).bandIdx - 1 - ((r % eigNB rows : ℕ) : ℚ))^2 < 1 := by
    have hle : ((rows.getD r ⟨0, 0, 0⟩).bandIdx - 1 - ((r % eigNB rows : ℕ) : ℚ))^2
        ≤ eigBandDevSq rows (eigNB rows) := by
      exact @Finset.single_le_sum ℕ ℚ _
        (fun x => ((rows.getD x ⟨0, 0, 0⟩).bandIdx - 1 - ((x % eigNB rows : ℕ) : ℚ))^2)
        (Finset.range rows.length) (fun i _ => sq_nonneg _) r (Finset.mem_range.mpr hrl)
    rw [getD_eq_get rows _ hrl] at hle
    calc ((rows.get ⟨r, hrl⟩).bandIdx - 1 - ((r % eigNB rows : ℕ) : ℚ))^2
        ≤ eigBandDevSq rows (eigNB rows) := hle
      _ < 1 / 10 ^ 30 := hband
      _ < 1 := by norm_num
  have hterm_k : ((rows.get ⟨r, hrl⟩).kIdx - 1 - ((r / eigNB rows : ℕ) : ℚ))^2 < 1 := by
    have hle : ((rows.getD r ⟨0, 0, 0⟩).kIdx - 1 - ((r / eigNB rows : ℕ) : ℚ))^2
        ≤ eigKDevSq rows (eigNB rows) := by
      exact @Finset.single_le_sum ℕ ℚ _
        (fun x => ((rows.getD x ⟨0, 0, 0⟩).kIdx - 1 - ((x / eigNB rows : ℕ) : ℚ))^2)
        (Finset.range rows.length) (fun i _ => sq_nonneg _) r (Finset.mem_range.mpr hrl)
    rw [getD_eq_get rows _ hrl] at hle
    calc ((rows.get ⟨r, hrl⟩).kIdx - 1 - ((r / eigNB rows : ℕ) : ℚ))^2
        ≤ eigKDevSq rows (eigNB rows) := hle
      _ < 1 / 10 ^ 30 := hk
      _ < 1 := by norm_num
  rw [hout]
  constructor
  · have hz : zb - 1 - (r % eigNB rows : ℕ) = 0 := by
      apply intCast_sq_lt_one
      have hcast : ((zb - 1 - (r % eigNB rows : ℕ) : ℤ) : ℚ)
          = (rows.get ⟨r, hrl⟩).bandIdx - 1 - ((r % eigNB rows : ℕ) : ℚ) := by
        rw [hzb, Int.cast_sub, Int.cast_sub, Int.cast_one, Int.cast_natCast]
      rw [hcast]
      exact hterm_b
    rw [hzb]
    have hval : zb = 1 + (r % eigNB rows : ℕ) := by omega
    rw [hval, Int.cast_add, Int.cast_one, Int.cast_natCast]
    ring
  · have hz : zk - 1 - (r / eigNB rows : ℕ) = 0 := by
      apply intCast_sq_lt_one
      have hcast : ((zk - 1 - (r / eigNB rows : ℕ) : ℤ) : ℚ)
          = (rows.get ⟨r, hrl⟩).kIdx - 1 - ((r / eigNB rows : ℕ) : ℚ) := by
        rw [hzk, Int.cast_sub, Int.cast_sub, Int.cast_one, Int.cast_natCast]
      rw [hcast]
      exact hterm_k
    rw [hzk]
    have hval : zk = 1 + (r / eigNB rows : ℕ) := by omega
    rw [hval, Int.cast_add, Int.cast_one, Int.cast_natCast]
    ring

/-- C6: reading the eigenvalue file (a) accepts every file whose explicit
1-based `(band, k)` index pairs are contiguous and positionally correct,
recovering the dimensions and the listed energies, and (b) whenever it
succeeds on a file with integer index fields, every line's index pair
necessarily equals its positional index — so any integer permutation of
an index (as in the permuted-band scenario) is rejected before any data
is returned. -/
theorem c6_eig_index_consistency :
    (∀ (rows : List EigRow) (NB0 NK0 : ℕ), 1 ≤ NB0 → 1 ≤ NK0 →
       rows.length = NK0 * NB0 → EigPositional rows NB0 →
       ∃ out, eigFromFile rows = .ok out ∧ out.NB = NB0 ∧ out.NK = NK0 ∧
         ∀ ik ib, out.dat ik ib = (rows.getD (ik * NB0 + ib) ⟨0, 0, 0⟩).energy) ∧
    (∀ (rows : List EigRow) (out : EigOut), EigIntIndexed rows →
       eigFromFile rows = .ok out → EigPositional rows out.NB) := by
  constructor
  · intro rows NB0 NK0 h1 h2 hlen hpos
    have hNB : eigNB rows = NB0 := by
      unfold eigNB
      rw [eig_npMax_band rows NB0 NK0 h1 h2 hlen hpos, pyRound_natCast, Int.toNat_natCast]
    have hNK : eigNK rows = NK0 := by
      unfold eigNK
      rw [eig_npMax_k rows NB0 NK0 h1 h2 hlen hpos, pyRound_natCast, Int.toNat_natCast]
    have hband : eigBandDevSq rows (eigNB rows) = 0 := by
      rw [hNB]
      apply Finset.sum_eq_zero
      intro r hr
      have hrl : r < rows.length := Finset.mem_range.mp hr
      rw [getD_eq_get rows _ hrl, (hpos r hrl).1]
      ring
    have hk : eigKDevSq rows (eigNB rows) = 0 := by
      rw [hNB]
      apply Finset.sum_eq_zero
      intro r hr
      have hrl : r < rows.length := Finset.mem_range.mp hr
      rw [getD_eq_get rows _ hrl, (hpos r hrl).2]
      ring
    refine ⟨⟨NB0, NK0, fun ik ib => (rows.getD (ik * NB0 + ib) ⟨0, 0, 0⟩).energy⟩, ?_, rfl, rfl,
      fun ik ib => rfl⟩
    unfold eigFromFile
    rw [if_pos (by rw [hNB, hNK]; exact hlen), if_pos (by rw [hband]; norm_num),
      if_pos (by rw [hk]; norm_num), hNB, hNK]
  · intro rows out hint hok
    unfold eigFromFile at hok
    split_ifs at hok with hlen hband hk
    case _ =>
      exact eigScanB rows out hint hlen hband hk hok
    all_goals exact absurd hok (by simp)

unseal Rat.add Rat.mul Rat.inv Rat.sub in
/-- Witness for C6: a positionally correct two-band, one-k eigenvalue
file is accepted with the listed energies. -/
theorem c6_witness :
    ∃ out, eigFromFile [⟨1, 1, 5⟩, ⟨2, 1, 7⟩] = .ok out ∧ out.NB = 2 ∧ out.NK = 1 ∧
      ∀ ik ib, out.dat ik ib =
        (([⟨1, 1, 5⟩, ⟨2, 1, 7⟩] : List EigRow).getD (ik * 2 + ib) ⟨0, 0, 0⟩).energy :=
  c6_eig_index_consistency.1 [⟨1, 1, 5⟩, ⟨2, 1, 7⟩] 2 1 (by decide) (by decide) (by decide)
    (by decide)

/-! ## C8 — the file registry conformity check

`Wannier90data.set_file` / `check_conform` (w90_files.py lines 382-421):
a registry keyed by file kind; registration first rejects duplicates
(without `overwrite`), then compares the new object against every
registered object on each of the four shared dimensional attributes
(`NK`, `NB`, `NW`, `NNB`) that are present and non-None on both sides. -/

/-- The four shared dimensional attributes iterated by `check_conform`. -/
inductive AttrKind where
  | NK
  | NB
  | NW
  | NNB
deriving DecidableEq

/-- The dimensional attributes of a registered file object; `none` models
both a missing attribute (`hasattr` false) and an attribute whose value
is Python `None` (both are skipped by `check_conform`). -/
structure FileAttrs where
  nk : Option ℕ
  nb : Option ℕ
  nw : Option ℕ
  nnb : Option ℕ
deriving DecidableEq

/-- Embeds `getattr(obj, attr)` for the four shared attributes. -/
def attrOf (f : FileAttrs) : AttrKind → Option ℕ
  | .NK => f.nk
  | .NB => f.nb
  | .NW => f.nw
  | .NNB => f.nnb

/-- The iteration order `['NK', 'NB', 'NW', 'NNB']` of line 416. -/
def attrList : List AttrKind := [.NK, .NB, .NW, .NNB]

/-- The data carried by the `check_conform` assertion message (line 421):
both file kinds, the attribute, and both values. -/
structure ConformErr where
  file1 : String
  file2 : String
  attr : AttrKind
  v1 : ℕ
  v2 : ℕ
deriving DecidableEq

/-- One `assert` of the inner loop of `check_conform` (lines 417-421):
a diagnostic exactly when the attribute is present and non-None on both
sides with differing values. -/
def attrClash (k1 k2 : String) (a : AttrKind) : Option ℕ → Option ℕ → Option ConformErr
  | some x, some y => if x ≠ y then some ⟨k1, k2, a, x, y⟩ else none
  | _, _ => none

/-- The inner loop of `check_conform` against one registered object: the
first attribute present and non-None on both sides with differing values,
if any. -/
def checkAttrs (k1 k2 : String) (this other : FileAttrs) : Option ConformErr :=
  (attrList.filterMap fun a => attrClash k1 k2 a (attrOf this a) (attrOf other a)).head?

/-- Embeds `Wannier90data.check_conform` (lines 414-421): the first mismatch
against any registered object, in registration and attribute order. -/
def checkConform (files : List (String × FileAttrs)) (key : String)
    (this : FileAttrs) : Option ConformErr :=
  (files.filterMap fun kv => checkAttrs key kv.1 this kv.2).head?

/-- Failure modes of `set_file`: the duplicate-key `RuntimeError`
(line 392) or the `check_conform` assertion (line 421). -/
inductive SetFileErr where
  | alreadySet
  | conform (e : ConformErr)
deriving DecidableEq

/-- Python dict assignment `self.__files[key] = val`: replace in place if
the key exists, else append. -/
def dictSet (files : List (String × FileAttrs)) (key : String)
    (val : FileAttrs) : List (String × FileAttrs) :=
  if files.any fun kv => kv.1 = key then
    files.map fun kv => if kv.1 = key then (key, val) else kv
  else files ++ [(key, val)]

/-- Embeds `Wannier90data.set_file` (lines 382-396) for a caller-supplied
object `val` (the `val is None` branch delegates to the per-kind
constructors, which read files and are out of scope here): duplicate-key
check, `check_conform`, then registration. -/
def setFile (files : List (String × FileAttrs)) (key : String)
    (val : FileAttrs) (overwrite : Bool) :
    Except SetFileErr (List (String × FileAttrs)) :=
  if overwrite = false ∧ files.any (fun kv => kv.1 = key) then .error .alreadySet
  else
    match checkConform files key val with
    | some e => .error (.conform e)
    | none => .ok (dictSet files key val)

/-- Agreement of two objects on every shared attribute present and
non-None on both. -/
def Conforms (this other : FileAttrs) : Prop :=
  ∀ (a : AttrKind) (x y : ℕ), attrOf this a = some x → attrOf other a = some y → x = y

instance (this other : FileAttrs) : Decidable (Conforms this other) :=
  decidable_of_iff
    (∀ a ∈ attrList, attrOf this a = none ∨ attrOf other a = none ∨
      attrOf this a = attrOf other a)
    (by
      constructor
      · intro h a x y hx hy
        rcases h a (by cases a <;> simp [attrList]) with h1 | h1 | h1
        · rw [hx] at h1; exact absurd h1 (by simp)
        · rw [hy] at h1; exact absurd h1 (by simp)
        · rw [hx, hy] at h1; exact Option.some.inj h1
      · intro h a _
        rcases hx : attrOf this a with _ | x
        · exact Or.inl rfl
        · rcases hy : attrOf other a with _ | y
          · exact Or.inr (Or.inl rfl)
          · exact Or.inr (Or.inr (by rw [h a x y hx hy])))

theorem head?_mem {α : Type} {l : List α} {a : α} (h : l.head? = some a) : a ∈ l := by
  cases l with
  | nil => simp at h
  | cons x t =>
    simp only [List.head?_cons, Option.some.injEq] at h
    exact h ▸ List.mem_cons_self x t

theorem checkAttrs_eq_none_iff (k1 k2 : String) (this other : FileAttrs) :
    checkAttrs k1 k2 this other = none ↔ Conforms this other := by
  unfold checkAttrs
  rw [List.head?_eq_none_iff, List.filterMap_eq_nil_iff]
  constructor
  · intro h a x y hx hy
    have ha : a ∈ attrList := by cases a <;> simp [attrList]
    have hcl := h a ha
    rw [hx, hy] at hcl
    by_contra hne
    simp [attrClash, hne] at hcl
  · intro h a _
    rcases hx : attrOf this a with _ | x
    · rcases attrOf other a with _ | y <;> rfl
    · rcases hy : attrOf other a with _ | y
      · rfl
      · simp [attrClash, h a x y hx hy]

theorem checkAttrs_eq_some (k1 k2 : String) (this other : FileAttrs) (e : ConformErr)
    (h : checkAttrs k1 k2 this other = some e) :
    e.file1 = k1 ∧ e.file2 = k2 ∧ attrOf this e.attr = some e.v1 ∧
      attrOf other e.attr = some e.v2 ∧ e.v1 ≠ e.v2 := by
  unfold checkAttrs at h
  have hmem := head?_mem h
  obtain ⟨a, _, ha⟩ := List.mem_filterMap.mp hmem
  rcases hx : attrOf this a with _ | x <;> rw [hx] at ha
  · simp [attrClash] at ha
  · rcases hy : attrOf other a with _ | y <;> rw [hy] at ha
    · simp [attrClash] at ha
    · by_cases hne : x = y
      · simp [attrClash, hne] at ha
      · rw [show attrClash k1 k2 a (some x) (some y)
            = if x ≠ y then some ⟨k1, k2, a, x, y⟩ else none from rfl,
          if_pos hne] at ha
        obtain rfl := Option.some.inj ha
        exact ⟨rfl, rfl, hx, hy, hne⟩

theorem checkConform_eq_none_iff (files : List (String × FileAttrs)) (key : String)
    (this : FileAttrs) :
    checkConform files key this = none ↔ ∀ kv ∈ files, Conforms this kv.2 := by
  unfold checkConform
  rw [List.head?_eq_none_iff, List.filterMap_eq_nil_iff]
  constructor
  · intro h kv hkv
    exact (checkAttrs_eq_none_iff key kv.1 this kv.2).mp (h kv hkv)
  · intro h kv hkv
    exact (checkAttrs_eq_none_iff key kv.1 this kv.2).mpr (h kv hkv)

/-- C8: registering an object compares it with every already-registered
object on each of the four shared dimensional attributes present and
non-None on both: registration succeeds exactly when there is no
duplicate-key violation and no mismatch against any registered object,
and a conformity failure carries both file kinds, the attribute, and the
two differing values of an actual mismatch. -/
theorem c8_registry_conformity (files : List (String × FileAttrs)) (key : String)
    (val : FileAttrs) (overwrite : Bool) :
    ((∃ r, setFile files key val overwrite = .ok r) ↔
      ((overwrite = true ∨ ∀ kv ∈ files, kv.1 ≠ key) ∧
       ∀ kv ∈ files, Conforms val kv.2)) ∧
    (∀ e, setFile files key val overwrite = .error (.conform e) →
      e.file1 = key ∧ ∃ kv, kv ∈ files ∧ kv.1 = e.file2 ∧
        attrOf val e.attr = some e.v1 ∧ attrOf kv.2 e.attr = some e.v2 ∧
        e.v1 ≠ e.v2) := by
  constructor
  · unfold setFile
    by_cases hdup : overwrite = false ∧ files.any (fun kv => kv.1 = key)
    · rw [if_pos hdup]
      constructor
      · rintro ⟨r, hr⟩; exact Except.noConfusion hr
      · rintro ⟨h1, _⟩
        obtain ⟨kv, hkv, hkey⟩ := List.any_eq_true.mp hdup.2
        rcases h1 with h1 | h1
        · rw [h1] at hdup; exact absurd hdup.1 (by simp)
        · exact absurd (of_decide_eq_true hkey) (h1 kv hkv)
    · rw [if_neg hdup]
      constructor
      · rintro ⟨r, hr⟩
        rcases hc : checkConform files key val with _ | e
        · refine ⟨?_, (checkConform_eq_none_iff files key val).mp hc⟩
          clear hr
          by_cases how : overwrite = true
          · exact Or.inl how
          · refine Or.inr fun kv hkv hkey => ?_
            exact hdup ⟨by revert how; cases overwrite <;> simp,
              List.any_eq_true.mpr ⟨kv, hkv, decide_eq_true hkey⟩⟩
        · rw [hc] at hr
          exact Except.noConfusion hr
      · rintro ⟨_, h2⟩
        rcases hc : checkConform files key val with _ | e
        · exact ⟨dictSet files key val, rfl⟩
        · obtain ⟨kv, hkv, ha⟩ := List.mem_filterMap.mp (head?_mem hc)
          obtain ⟨_, _, hx, hy, hne⟩ := checkAttrs_eq_some key kv.1 val kv.2 e ha
          exact absurd (h2 kv hkv e.attr e.v1 e.v2 hx hy) hne
  · intro e he
    unfold setFile at he
    by_cases hdup : overwrite = false ∧ files.any (fun kv => kv.1 = key)
    · rw [if_pos hdup] at he
      exact SetFileErr.noConfusion (Except.error.inj he)
    · rw [if_neg hdup] at he
      rcases hc : checkConform files key val with _ | e2
      · rw [hc] at he; exact Except.noConfusion he
      · rw [hc] at he
        obtain ⟨kv, hkv, ha⟩ := List.mem_filterMap.mp (head?_mem hc)
        have hee := SetFileErr.conform.inj (Except.error.inj he)
        rw [hee] at ha
        obtain ⟨h1, h2, hx, hy, hne⟩ := checkAttrs_eq_some key kv.1 val kv.2 e ha
        exact ⟨h1, kv, hkv, h2.symm, hx, hy, hne⟩

/-- Witness for C8: registering an `amn`-like object whose `NK` differs
from the already-registered `mmn`-like object fails with the expected
diagnostic data. -/
theorem c8_witness :
    (⟨"amn", "mmn", AttrKind.NK, 3, 4⟩ : ConformErr).file1 = "amn" ∧
    ∃ kv, kv ∈ [("mmn", (⟨some 4, some 2, none, some 8⟩ : FileAttrs))] ∧
      kv.1 = (⟨"amn", "mmn", AttrKind.NK, 3, 4⟩ : ConformErr).file2 ∧
      attrOf ⟨some 3, none, some 5, none⟩ (⟨"amn", "mmn", AttrKind.NK, 3, 4⟩ : ConformErr).attr
        = some (⟨"amn", "mmn", AttrKind.NK, 3, 4⟩ : ConformErr).v1 ∧
      attrOf kv.2 (⟨"amn", "mmn", AttrKind.NK, 3, 4⟩ : ConformErr).attr
        = some (⟨"amn", "mmn", AttrKind.NK, 3, 4⟩ : ConformErr).v2 ∧
      (⟨"amn", "mmn", AttrKind.NK, 3, 4⟩ : ConformErr).v1
        ≠ (⟨"amn", "mmn", AttrKind.NK, 3, 4⟩ : ConformErr).v2 :=
  (c8_registry_conformity [("mmn", ⟨some 4, some 2, none, some 8⟩)] "amn"
      ⟨some 3, none, some 5, none⟩ false).2
    ⟨"amn", "mmn", AttrKind.NK, 3, 4⟩ (by decide)

/-! ## C3 — the overlap-file parser and the worker count

`MMN.from_w90_file` (w90_files.py lines 559-595) parses the `.mmn` text
body in chunks of `npar * 4` blocks of `1 + NB*NB` lines each.  The
chunking loop is `for j in range(0, NNB * NK, npar * mult)`, and Python
`range` raises `ValueError` when its step is zero — the code itself says
`# FIXME: npar = 0 does not work` (line 569), although the sequential
conversion branch for `npar == 0` exists at line 581. -/

/-- The `.mmn` file after its two header lines: declared dimensions and
the remaining lines, each already split into numbers. -/
structure MMNfile where
  NB : ℕ
  NK : ℕ
  NNB : ℕ
  lines : List (List ℚ)
deriving DecidableEq

/-- Every `b`-th element of a list, with an explicit fuel argument kept
equal to the list length so that recursion is structural. -/
def takeEveryAux {α : Type} (b : ℕ) : ℕ → List α → List α
  | 0, _ => []
  | _, [] => []
  | n + 1, a :: t => a :: takeEveryAux b n (t.drop b)

/-- The header-line extraction `x[::block]`: every `block`-th element. -/
def takeEvery {α : Type} (b : ℕ) (l : List α) : List α :=
  takeEveryAux b l.length l

/-- The complete data blocks of one chunk:
`[x[i*block+1 : (i+1)*block] for i in range(chunk) if (i+1)*block <= len(x)]`. -/
def chunkBlocks (block chunk : ℕ) (x : List (List ℚ)) : List (List (List ℚ)) :=
  (List.range chunk).filterMap fun i =>
    if (i + 1) * block ≤ x.length then some ((x.drop (i * block + 1)).take (block - 1))
    else none

/-- Embeds `convert` (line 543) followed by the complex assembly
`d[:, 0] + 1j * d[:, 1]` (line 588) on one block of lines. -/
def convertC (z : List (List ℚ)) : List GQ :=
  z.map fun l => ⟨l.getD 0 0, l.getD 1 0⟩

/-- The chunking loop of `from_w90_file` (lines 572-581): at most `n`
iterations (the length of the Python `range`), each taking
`block * chunk` lines, breaking on an empty slice; returns the header
lines and the converted data blocks in original order. -/
def mmnLoop (block chunk : ℕ) : ℕ → List (List ℚ) → List (List ℚ) × List (List GQ)
  | 0, _ => ([], [])
  | n + 1, rem =>
    let x := rem.take (block * chunk)
    if x = [] then ([], [])
    else
      let rest := mmnLoop block chunk n (rem.drop (block * chunk))
      (takeEvery block x ++ rest.1, (chunkBlocks block chunk x).map convertC ++ rest.2)

/-- The output of `MMN.from_w90_file`: dimensions, the flat complex data
stream (whose fixed `(NK, NNB, NB, NB)` reshape-plus-transpose is the
same rearrangement for every worker count), the neighbour column and the
image-shift columns. -/
structure MmnOut where
  NB : ℕ
  NK : ℕ
  NNB : ℕ
  dataFlat : List GQ
  nbrs : List ℚ
  shifts : List (ℚ × ℚ × ℚ)
deriving DecidableEq

/-- Failure modes of `MMN.from_w90_file`: the `range(..., 0)`
`ValueError` for `npar = 0`, the data/header reshape errors and the
k-index consistency assert (line 591). -/
inductive MmnErr where
  | rangeStepZero
  | reshape
  | headShape
  | headIdx
deriving DecidableEq

/-- Embeds `MMN.from_w90_file` (lines 559-595) on the pre-split text
body.  For `npar = 0` the Python loop header
`range(0, NNB * NK, npar * mult)` raises `ValueError` before any line is
consumed, so the sequential branch of line 581 is unreachable. -/
def mmnParse (f : MMNfile) (npar : ℕ) : Except MmnErr MmnOut :=
  if npar = 0 then .error .rangeStepZero
  else
    let block := 1 + f.NB * f.NB
    let chunk := npar * 4
    let niter := (f.NNB * f.NK + chunk - 1) / chunk
    let hd := mmnLoop block chunk niter f.lines
    if hd.2.length = f.NK * f.NNB ∧ ∀ d ∈ hd.2, d.length = f.NB * f.NB then
      if hd.1.length = f.NK * f.NNB ∧ ∀ h ∈ hd.1, h.length = 5 then
        if ∀ r < hd.1.length, (hd.1.getD r []).getD 0 0 = ((r / f.NNB : ℕ) : ℚ) + 1 then
          .ok ⟨f.NB, f.NK, f.NNB, hd.2.flatten,
               hd.1.map (fun h => h.getD 1 0 - 1),
               hd.1.map (fun h => (h.getD 2 0, h.getD 3 0, h.getD 4 0))⟩
        else .error .headIdx
      else .error .headShape
    else .error .reshape

/-- A minimal well-formed `.mmn` body: `NB = NK = NNB = 1`, one header
line and one complex entry line. -/
def mmnFileC3 : MMNfile := ⟨1, 1, 1, [[1, 1, 0, 0, 0], [1, 0]]⟩

unseal Rat.add Rat.mul Rat.inv Rat.sub in
/-- C3: the code, evaluated at the failing input — parsing a well-formed
minimal `.mmn` file succeeds identically for the worker counts 1 and 2,
but a worker count of zero aborts with the `range`-step-zero error
instead of falling back to sequential conversion. -/
theorem c3_npar_zero_divergence :
    mmnParse mmnFileC3 0 = .error .rangeStepZero ∧
    mmnParse mmnFileC3 1 = .ok ⟨1, 1, 1, [⟨1, 0⟩], [0], [(0, 0, 0)]⟩ ∧
    mmnParse mmnFileC3 2 = mmnParse mmnFileC3 1 := by
  refine ⟨rfl, ?_, ?_⟩ <;> decide

/-! ## The neighbour-shell resolver `MMN.set_bk`

`MMN.set_bk` (w90_files.py lines 597-674).  Exact-value embedding:

* `np.round` / `np.rint` is `pyRound` (half-to-even);
* the SVD pseudo-inverse solve for the shell weights (lines 628-630) is
  a floating-point computation with no exact rational semantics, so it
  enters as an explicit `solve` parameter mapping the stacked shell
  matrices to the per-shell weights — every theorem quantifies over it;
* `np.argsort` of the Euclidean lengths is a sort by squared length
  (the square root is monotone), which is exact in `ℚ`;
* the shell split `length[i+1] - length[i] > kmesh_tol` and the
  completeness test `norm(check_eye - eye(3)) > bk_complete_tol` are
  encoded by their exact algebraic equivalents on squared norms
  (`sqrtGapGt`, `sqrtGtB`);
* the Python `set` of displacement tuples (line 613) is modelled as
  first-occurrence deduplication; the downstream dictionaries are keyed
  lookups and do not depend on that enumeration order;
* `np.unique(..., axis=0)` (line 659) is lexicographic sort plus
  deduplication. -/

/-- An integer reciprocal-lattice displacement (a row of `bk_latt`). -/
abbrev V3Z := Fin 3 → ℤ

/-- A Cartesian 3-vector. -/
abbrev V3Q := Fin 3 → ℚ

/-- A real 3×3 matrix, componentwise. -/
abbrev M3 := Fin 3 → Fin 3 → ℚ

/-- The 3×3 identity `np.eye(3)`. -/
def eye3 : M3 := fun i j => if i = j then 1 else 0

/-- The 3×3 matrix product. -/
def matMul3 (a b : M3) : M3 := fun i j => ∑ k : Fin 3, a i k * b k j

/-- Determinant of a 3×3 matrix. -/
def det3 (m : M3) : ℚ :=
  m 0 0 * (m 1 1 * m 2 2 - m 1 2 * m 2 1)
  - m 0 1 * (m 1 0 * m 2 2 - m 1 2 * m 2 0)
  + m 0 2 * (m 1 0 * m 2 1 - m 1 1 * m 2 0)

/-- Embeds `np.linalg.inv` of a 3×3 matrix via the adjugate (exact in `ℚ`;
numpy raises on a singular matrix, which `set_bk` models by checking
`det3 = 0`). -/
def inv3 (m : M3) : M3 :=
  ![![(m 1 1 * m 2 2 - m 1 2 * m 2 1) / det3 m,
     (-(m 0 1 * m 2 2 - m 0 2 * m 2 1)) / det3 m,
     (m 0 1 * m 1 2 - m 0 2 * m 1 1) / det3 m],
    ![(-(m 1 0 * m 2 2 - m 1 2 * m 2 0)) / det3 m,
     (m 0 0 * m 2 2 - m 0 2 * m 2 0) / det3 m,
     (-(m 0 0 * m 1 2 - m 0 2 * m 1 0)) / det3 m],
    ![(m 1 0 * m 2 1 - m 1 1 * m 2 0) / det3 m,
     (-(m 0 0 * m 2 1 - m 0 1 * m 2 0)) / det3 m,
     (m 0 0 * m 1 1 - m 0 1 * m 1 0) / det3 m]]

theorem fin3_mk_two (h : 2 < 3) : (⟨2, h⟩ : Fin 3) = 2 := rfl

theorem matMul3_inv3 (m : M3) (h : det3 m ≠ 0) : matMul3 m (inv3 m) = eye3 := by
  funext i j
  fin_cases i <;> fin_cases j <;>
    simp only [matMul3, inv3, eye3, Fin.sum_univ_three] <;>
    norm_num [Matrix.cons_val_zero, Matrix.cons_val_one, Matrix.head_cons, Fin.ext_iff,
      fin3_mk_two] <;>
    field_simp <;>
    (try ring_nf) <;>
    (try (unfold det3; ring))

/-- The inputs of `set_bk` (line 597): reduced k-points, the
Monkhorst-Pack grid, the reciprocal lattice, the per-(k, neighbour)
target indices and image shifts from the `.mmn` header lines, and the two
tolerances. -/
structure BkInput (NK NNB : ℕ) where
  kpt : Fin NK → Fin 3 → ℚ
  mp : Fin 3 → ℤ
  recip : M3
  neighbours : Fin NK → Fin NNB → Fin NK
  G : Fin NK → Fin NNB → Fin 3 → ℤ
  kmeshTol : ℚ
  bkCompleteTol : ℚ

/-- The integer lattice displacement
`round((kpt_latt[nbrs] - kpt_latt + G) * mp_grid)` (lines 606-612). -/
def bkLatt {NK NNB : ℕ} (inp : BkInput NK NNB) (ik : Fin NK) (ib : Fin NNB) : V3Z :=
  fun c => pyRound ((inp.kpt (inp.neighbours ik ib) c - inp.kpt ik c
    + (inp.G ik ib c : ℚ)) * (inp.mp c : ℚ))

/-- All (k, neighbour) displacements, flattened in k-major order
(`bk_latt.reshape(-1, 3)`). -/
def allLatt {NK NNB : ℕ} (inp : BkInput NK NNB) : List V3Z :=
  (List.finRange NK).flatMap fun ik => (List.finRange NNB).map (bkLatt inp ik)

/-- The distinct displacements (the Python `set` of line 613, in
first-occurrence order — the downstream dictionaries do not depend on the
set enumeration order). -/
def uniqLatt {NK NNB : ℕ} (inp : BkInput NK NNB) : List V3Z := (allLatt inp).dedup

/-- Embeds `bk_latt_unique.dot(recip_lattice / mp_grid[:, None])` (line 615) for
one displacement. -/
def cartOf {NK NNB : ℕ} (inp : BkInput NK NNB) (l : V3Z) : V3Q :=
  fun c => ∑ r : Fin 3, (l r : ℚ) * inp.recip r c / (inp.mp r : ℚ)

/-- Squared Euclidean length. -/
def sqnorm (v : V3Q) : ℚ := ∑ c : Fin 3, v c * v c

/-- Length-ascending comparison of (displacement, Cartesian vector)
pairs: `np.argsort` of the Euclidean lengths orders exactly by squared
length, since the square root is monotone. -/
def bkLenLe (p q : V3Z × V3Q) : Prop := sqnorm p.2 ≤ sqnorm q.2

instance : DecidableRel bkLenLe := fun p q => by unfold bkLenLe; infer_instance

/-- The unique displacements with their Cartesian vectors, sorted by
length ascending (lines 616-620). -/
def sortedPairs {NK NNB : ℕ} (inp : BkInput NK NNB) : List (V3Z × V3Q) :=
  List.insertionSort bkLenLe ((uniqLatt inp).map fun l => (l, cartOf inp l))

/-- Embeds `bk_latt_unique` after the length sort. -/
def lattSorted {NK NNB : ℕ} (inp : BkInput NK NNB) : List V3Z :=
  (sortedPairs inp).map Prod.fst

/-- Embeds `bk_cart_unique` after the length sort. -/
def cartSorted {NK NNB : ℕ} (inp : BkInput NK NNB) : List V3Q :=
  (sortedPairs inp).map Prod.snd

/-- Exact test for `sqrt y - sqrt x > t` on squared lengths `x, y ≥ 0`
(the shell boundary test of lines 621-625). -/
def sqrtGapGt (x y t : ℚ) : Bool :=
  if 0 ≤ t then
    decide (0 < y - x - t * t) && decide (4 * t * t * x < (y - x - t * t)^2)
  else if x < t * t then true
  else decide (0 < y - x - t * t) || decide ((y - x - t * t)^2 < 4 * t * t * x)

/-- Group a sorted list into runs, starting a new run whenever `gap`
holds between consecutive elements (the `brd` boundaries). -/
def chunksBy {α : Type} (gap : α → α → Bool) : List α → List (List α)
  | [] => []
  | [a] => [[a]]
  | a :: b :: t =>
    let r := chunksBy gap (b :: t)
    if gap a b then [a] :: r
    else
      match r with
      | [] => [[a]]
      | g :: gs => (a :: g) :: gs

/-- The shells: unique vectors grouped by length within `kmesh_tol`. -/
def shellsOf {NK NNB : ℕ} (inp : BkInput NK NNB) : List (List (V3Z × V3Q)) :=
  chunksBy (fun p q => sqrtGapGt (sqnorm p.2) (sqnorm q.2) inp.kmeshTol) (sortedPairs inp)

/-- Outer product `b bᵗ`. -/
def outer3 (v : V3Q) : M3 := fun i j => v i * v j

/-- Embeds `bk_cart_unique[b1:b2].T.dot(bk_cart_unique[b1:b2])` for one shell
(line 626). -/
def shellMat (s : List (V3Z × V3Q)) : M3 :=
  s.foldl (fun m p => m + outer3 p.2) 0

/-- The stacked per-shell matrices (line 626). -/
def shellMats {NK NNB : ℕ} (inp : BkInput NK NNB) : List M3 :=
  (shellsOf inp).map shellMat

/-- Embeds `check_eye = sum(w * m for w, m in zip(weight_shell, shell_mat))`
(line 631), for the weights produced by the solver. -/
def checkEyeOf {NK NNB : ℕ} (inp : BkInput NK NNB) (solve : List M3 → List ℚ) : M3 :=
  ((solve (shellMats inp)).zip (shellMats inp)).foldl (fun acc wm => acc + wm.1 • wm.2) 0

/-- Squared Frobenius norm. -/
def frobSq (m : M3) : ℚ := ∑ i : Fin 3, ∑ j : Fin 3, m i j * m i j

/-- Exact test for `sqrt n > t`, `n ≥ 0` (the completeness comparison of
line 633 in squared form). -/
def sqrtGtB (n t : ℚ) : Bool := decide (t < 0) || decide (t * t < n)

/-- The per-unique-vector weights, one per shell member in sorted order
(line 640; Python `zip` truncates on a short solver output exactly as
`List.zip` does). -/
def weightFlat {NK NNB : ℕ} (inp : BkInput NK NNB) (solve : List M3 → List ℚ) : List ℚ :=
  ((solve (shellMats inp)).zip (shellsOf inp)).flatMap fun ws => ws.2.map fun _ => ws.1

/-- The entries of `weight_dict` (line 641). -/
def weightPairs {NK NNB : ℕ} (inp : BkInput NK NNB) (solve : List M3 → List ℚ) :
    List (V3Z × ℚ) :=
  (lattSorted inp).zip (weightFlat inp solve)

/-- Python dict lookup on an association list with distinct keys. -/
def dget {α : Type} (l : List (V3Z × α)) (k : V3Z) : Option α :=
  (l.find? fun p => decide (p.1 = k)).map Prod.snd

/-- Embeds `self.bk_cart[ik, ib] = bk_cart_dict[tuple(bk_latt[ik, ib])]`
(line 643); the key is always present, the well-definedness being part of
`set_bk`'s guard `h3`. -/
def bkCartF {NK NNB : ℕ} (inp : BkInput NK NNB) (ik : Fin NK) (ib : Fin NNB) : V3Q :=
  (dget (sortedPairs inp) (bkLatt inp ik ib)).getD (fun _ => 0)

/-- Embeds `self.wk[ik, ib] = weight_dict[tuple(bk_latt[ik, ib])]` (line 644). -/
def wkF {NK NNB : ℕ} (inp : BkInput NK NNB) (solve : List M3 → List ℚ)
    (ik : Fin NK) (ib : Fin NNB) : ℚ :=
  (dget (weightPairs inp solve) (bkLatt inp ik ib)).getD 0

/-- The second-pass recomputed displacement
`np.rint((bk_cart @ inv(recip_lattice)) * mp_grid)` (lines 658, 666). -/
def bkLatt2 {NK NNB : ℕ} (inp : BkInput NK NNB) (ik : Fin NK) (ib : Fin NNB) : V3Z :=
  fun c => pyRound ((∑ r : Fin 3, bkCartF inp ik ib r * inv3 inp.recip r c) * (inp.mp c : ℚ))

/-- All second-pass displacements, flattened in k-major order. -/
def allLatt2 {NK NNB : ℕ} (inp : BkInput NK NNB) : List V3Z :=
  (List.finRange NK).flatMap fun ik => (List.finRange NNB).map (bkLatt2 inp ik)

/-- Lexicographic order on integer 3-vectors (the row order of
`np.unique(..., axis=0)`). -/
def zlexLe (a b : V3Z) : Prop :=
  a 0 < b 0 ∨ (a 0 = b 0 ∧ (a 1 < b 1 ∨ (a 1 = b 1 ∧ a 2 ≤ b 2)))

instance : DecidableRel zlexLe := fun a b => by unfold zlexLe; infer_instance

/-- Embeds `np.unique(bk_latt.reshape(-1, 3), axis=0)` (line 659): the distinct
rows in lexicographic order. -/
def uniq2 {NK NNB : ℕ} (inp : BkInput NK NNB) : List V3Z :=
  List.insertionSort zlexLe (allLatt2 inp).dedup

/-- Embeds `bk_cart_unique = (bk_latt_unique / mp_grid) @ recip_lattice`
(line 660). -/
def cartU2 {NK NNB : ℕ} (inp : BkInput NK NNB) : List V3Q :=
  (uniq2 inp).map fun l => fun c => ∑ r : Fin 3, ((l r : ℚ) / (inp.mp r : ℚ)) * inp.recip r c

/-- Embeds `np.allclose` with its default tolerances
(`|a - b| <= 1e-8 + 1e-5 * |b|` componentwise), the check of line 668. -/
def allclose (a b : V3Q) : Prop :=
  ∀ c, |a c - b c| ≤ 1 / 10 ^ 8 + (1 / 10 ^ 5) * |b c|

instance (a b : V3Q) : Decidable (allclose a b) := by unfold allclose; infer_instance

/-- The diagnostic data carried by the completeness `RuntimeError`
(lines 634-639): the reconstructed check matrix, the unique vectors
(lattice and Cartesian) and the solved shell weights. -/
structure BkDiag where
  checkEye : M3
  lattUnique : List V3Z
  cartUnique : List V3Q
  weightShell : List ℚ
deriving DecidableEq

/-- Failure modes of `set_bk`, in program order: the unique-count assert
(line 614), the completeness `RuntimeError` (line 633), `KeyError` on the
two dictionaries (lines 643-644), `np.linalg.inv` on a singular lattice
(line 658), the second-pass shape assert (line 661), `.index` failure and
the `allclose` assert of the scatter loop (lines 667-668). -/
inductive BkErr where
  | countMismatch
  | incomplete (d : BkDiag)
  | keyErrorCart
  | keyErrorWeight
  | singular
  | uniqueShape
  | indexErr
  | allcloseFail
deriving DecidableEq

/-- The attributes stored by a successful `set_bk` (lines 643-644 and
671-673): `bk_cart`, `wk`, and the final (second-pass) unique catalogue
with the per-(k, neighbour) unique-index map. -/
structure BkRes (NK NNB : ℕ) where
  bkCart : Fin NK → Fin NNB → V3Q
  wk : Fin NK → Fin NNB → ℚ
  lattUnique : List V3Z
  cartUnique : List V3Q
  ibUniqueMap : Fin NK → Fin NNB → Fin NNB
deriving DecidableEq

/-- Embeds `MMN.set_bk` (lines 597-674) over the solver parameter: the
unique-count assert, the shell construction and completeness check, the
weight/Cartesian broadcast through the two dictionaries, and the
second-pass unique-b index map.  The memoization of lines 598-605 (a
no-op when the attributes already exist) is not modelled: this is the
computing branch. -/
def set_bk {NK NNB : ℕ} (inp : BkInput NK NNB) (solve : List M3 → List ℚ) :
    Except BkErr (BkRes NK NNB) :=
  if (uniqLatt inp).length = NNB then
    if sqrtGtB (frobSq (checkEyeOf inp solve - eye3)) inp.bkCompleteTol = true then
      .error (.incomplete
        ⟨checkEyeOf inp solve, lattSorted inp, cartSorted inp, solve (shellMats inp)⟩)
    else
      if ∀ ik ib, (dget (sortedPairs inp) (bkLatt inp ik ib)).isSome then
        if ∀ ik ib, (dget (weightPairs inp solve) (bkLatt inp ik ib)).isSome then
          if det3 inp.recip = 0 then .error .singular
          else
            if h6 : (uniq2 inp).length = NNB then
              if h7 : ∀ ik ib, bkLatt2 inp ik ib ∈ uniq2 inp then
                if ∀ ik ib, allclose
                    ((cartU2 inp).getD (List.indexOf (bkLatt2 inp ik ib) (uniq2 inp))
                      (fun _ => 0))
                    (bkCartF inp ik ib) then
                  .ok ⟨bkCartF inp, wkF inp solve, uniq2 inp, cartU2 inp,
                    fun ik ib => ⟨List.indexOf (bkLatt2 inp ik ib) (uniq2 inp),
                      by have hlt := List.indexOf_lt_length.mpr (h7 ik ib); omega⟩⟩
                else .error .allcloseFail
              else .error .indexErr
            else .error .uniqueShape
        else .error .keyErrorWeight
      else .error .keyErrorCart
  else .error .countMismatch

/-- C1 (amended): whenever `set_bk` returns successfully, the final
unique-b catalogue has exactly `NNB` entries (as does the first-pass
set of distinct displacements), and the reconstructed check matrix
deviates from the identity by **at most** `bk_complete_tol` in Frobenius
norm (in squared form: `frobSq ≤ tol²` with `tol ≥ 0` — the code raises
only on a deviation strictly exceeding the tolerance, so equality is
accepted); conversely, once the unique-count assert has passed, a
deviation exceeding the tolerance makes `set_bk` raise the fatal
completeness error carrying the check matrix, the unique vectors and the
solved weights.  This holds for every weight solver. -/
theorem c1_set_bk_completeness {NK NNB : ℕ} (inp : BkInput NK NNB)
    (solve : List M3 → List ℚ) :
    (∀ res, set_bk inp solve = .ok res →
       res.lattUnique.length = NNB ∧ (uniqLatt inp).length = NNB ∧
       0 ≤ inp.bkCompleteTol ∧
       frobSq (checkEyeOf inp solve - eye3) ≤ inp.bkCompleteTol * inp.bkCompleteTol) ∧
    ((uniqLatt inp).length = NNB →
     sqrtGtB (frobSq (checkEyeOf inp solve - eye3)) inp.bkCompleteTol = true →
     set_bk inp solve = .error (.incomplete
       ⟨checkEyeOf inp solve, lattSorted inp, cartSorted inp, solve (shellMats inp)⟩)) := by
  constructor
  · intro res h
    unfold set_bk at h
    split_ifs at h with h1 h2 h3 h4 h5 h6 h7 h8
    all_goals try exact Except.noConfusion h
    have hres := Except.ok.inj h
    simp only [sqrtGtB, Bool.or_eq_true, decide_eq_true_eq, not_or] at h2
    push_neg at h2
    refine ⟨?_, h1, h2.1, h2.2⟩
    rw [← hres]
    exact h6
  · intro hcount hfail
    unfold set_bk
    rw [if_pos hcount, if_pos hfail]

/-- The 2×2×2-style cubic scenario of the spec: a single k-point whose
six neighbours are itself shifted by `±x, ±y, ±z`, unit grid and an
identity reciprocal lattice, with a completeness tolerance of zero. -/
def cubicIn : BkInput 1 6 :=
  ⟨fun _ _ => 0, fun _ => 1, eye3, fun _ _ => 0,
   fun _ ib c =>
     (![![1, 0, 0], ![-1, 0, 0], ![0, 1, 0], ![0, -1, 0], ![0, 0, 1], ![0, 0, -1]] :
       Fin 6 → Fin 3 → ℤ) ib c,
   1 / 10 ^ 7, 0⟩

/-- The single-shell weight `1/2` (the value the SVD pseudo-inverse
produces for the cubic shell). -/
def cubicSolve : List M3 → List ℚ := fun _ => [1 / 2]

unseal Rat.add Rat.mul Rat.inv Rat.sub in
/-- Counterexample for C1: with the complete cubic neighbour set and
`bk_complete_tol = 0`, `set_bk` succeeds (its check matrix is exactly the
identity), yet the deviation is not **strictly** less than the tolerance
— the invariant guaranteed on success is `≤`, not `<`. -/
theorem c1_counterexample :
    (set_bk cubicIn cubicSolve).isOk = true ∧
    cubicIn.bkCompleteTol = 0 ∧
    ¬ frobSq (checkEyeOf cubicIn cubicSolve - eye3)
        < cubicIn.bkCompleteTol * cubicIn.bkCompleteTol := by
  refine ⟨?_, rfl, ?_⟩ <;> decide

/-- A one-dimensional neighbour set (`±x` only) on a 3-D lattice: two
shells short of completeness. -/
def lineIn : BkInput 1 2 :=
  ⟨fun _ _ => 0, fun _ => 1, eye3, fun _ _ => 0,
   fun _ ib c => (![![1, 0, 0], ![-1, 0, 0]] : Fin 2 → Fin 3 → ℤ) ib c,
   1 / 10 ^ 7, 1⟩

/-- An arbitrary concrete solver output for the incomplete line shell. -/
def lineSolve : List M3 → List ℚ := fun _ => [2]

unseal Rat.add Rat.mul Rat.inv Rat.sub in
/-- Witness for C1 at the geometrically incomplete one-dimensional
neighbour set: `set_bk` raises the completeness error with the full
diagnostic payload. -/
theorem c1_witness :
    set_bk lineIn lineSolve = .error (.incomplete
      ⟨checkEyeOf lineIn lineSolve, lattSorted lineIn, cartSorted lineIn,
       lineSolve (shellMats lineIn)⟩) :=
  (c1_set_bk_completeness lineIn lineSolve).2 (by decide) (by decide)

theorem sortedPairs_snd {NK NNB : ℕ} (inp : BkInput NK NNB) :
    ∀ p ∈ sortedPairs inp, p.2 = cartOf inp p.1 := by
  intro p hp
  have hperm := List.perm_insertionSort bkLenLe ((uniqLatt inp).map fun l => (l, cartOf inp l))
  obtain ⟨l, _, hl⟩ := List.mem_map.mp (hperm.mem_iff.mp hp)
  rw [← hl]

theorem bkLatt_mem_sortedPairs {NK NNB : ℕ} (inp : BkInput NK NNB)
    (ik : Fin NK) (ib : Fin NNB) :
    (bkLatt inp ik ib, cartOf inp (bkLatt inp ik ib)) ∈ sortedPairs inp := by
  have h1 : bkLatt inp ik ib ∈ allLatt inp := by
    unfold allLatt
    refine List.mem_flatMap.mpr ⟨ik, List.mem_finRange ik, ?_⟩
    exact List.mem_map.mpr ⟨ib, List.mem_finRange ib, rfl⟩
  have h3 : (bkLatt inp ik ib, cartOf inp (bkLatt inp ik ib)) ∈
      (uniqLatt inp).map fun l => (l, cartOf inp l) :=
    List.mem_map.mpr ⟨_, List.mem_dedup.mpr h1, rfl⟩
  exact (List.perm_insertionSort bkLenLe _).mem_iff.mpr h3

theorem bkCartF_eq {NK NNB : ℕ} (inp : BkInput NK NNB) (ik : Fin NK) (ib : Fin NNB) :
    bkCartF inp ik ib = cartOf inp (bkLatt inp ik ib) := by
  unfold bkCartF dget
  rcases hf : (sortedPairs inp).find? (fun p => decide (p.1 = bkLatt inp ik ib)) with _ | p
  · exfalso
    have hnone := List.find?_eq_none.mp hf _ (bkLatt_mem_sortedPairs inp ik ib)
    simp at hnone
  · have hp0 := List.find?_some hf
    have hp1 : p.1 = bkLatt inp ik ib := of_decide_eq_true hp0
    have hp2 := sortedPairs_snd inp p (List.mem_of_find?_eq_some hf)
    have hred : ((some p).map Prod.snd).getD (fun _ => (0 : ℚ)) = p.2 := rfl
    rw [hf, hred, hp2, hp1]

theorem bkLatt2_eq {NK NNB : ℕ} (inp : BkInput NK NNB)
    (hdet : det3 inp.recip ≠ 0) (hmp : ∀ c, inp.mp c ≠ 0)
    (ik : Fin NK) (ib : Fin NNB) :
    bkLatt2 inp ik ib = bkLatt inp ik ib := by
  funext c
  unfold bkLatt2
  rw [bkCartF_eq]
  have hsum : (∑ r : Fin 3, cartOf inp (bkLatt inp ik ib) r * inv3 inp.recip r c)
      = (bkLatt inp ik ib c : ℚ) / (inp.mp c : ℚ) := by
    unfold cartOf
    calc ∑ r : Fin 3, (∑ s : Fin 3, (bkLatt inp ik ib s : ℚ) * inp.recip s r
            / (inp.mp s : ℚ)) * inv3 inp.recip r c
        = ∑ r : Fin 3, ∑ s : Fin 3, ((bkLatt inp ik ib s : ℚ) / (inp.mp s : ℚ))
            * (inp.recip s r * inv3 inp.recip r c) := by
          refine Finset.sum_congr rfl fun r _ => ?_
          rw [Finset.sum_mul]
          refine Finset.sum_congr rfl fun s _ => ?_
          ring
      _ = ∑ s : Fin 3, ((bkLatt inp ik ib s : ℚ) / (inp.mp s : ℚ))
            * ∑ r : Fin 3, inp.recip s r * inv3 inp.recip r c := by
          rw [Finset.sum_comm]
          refine Finset.sum_congr rfl fun s _ => ?_
          rw [Finset.mul_sum]
      _ = ∑ s : Fin 3, ((bkLatt inp ik ib s : ℚ) / (inp.mp s : ℚ)) * eye3 s c := by
          refine Finset.sum_congr rfl fun s _ => ?_
          have hmi := congrFun (congrFun (matMul3_inv3 inp.recip hdet) s) c
          unfold matMul3 at hmi
          rw [hmi]
      _ = (bkLatt inp ik ib c : ℚ) / (inp.mp c : ℚ) := by
          rw [Fin.sum_univ_three]
          fin_cases c <;> norm_num [eye3, Fin.ext_iff, fin3_mk_two]
  rw [hsum, div_mul_cancel₀ _ (by exact_mod_cast hmp c)]
  exact pyRound_intCast _

theorem set_bk_ok_elim {NK NNB : ℕ} (inp : BkInput NK NNB)
    (solve : List M3 → List ℚ) (res : BkRes NK NNB)
    (hok : set_bk inp solve = .ok res) :
    det3 inp.recip ≠ 0 ∧
    (∀ ik ib, bkLatt2 inp ik ib ∈ uniq2 inp) ∧
    (uniq2 inp).length = NNB ∧
    res.bkCart = bkCartF inp ∧
    res.cartUnique = cartU2 inp ∧
    res.lattUnique = uniq2 inp ∧
    ∀ ik ib, (res.ibUniqueMap ik ib : ℕ) = List.indexOf (bkLatt2 inp ik ib) (uniq2 inp) := by
  unfold set_bk at hok
  split_ifs at hok with h1 h2 h3 h4 h5 h6 h7 h8
  all_goals try exact Except.noConfusion hok
  have hres := Except.ok.inj hok
  refine ⟨h5, h7, h6, ?_, ?_, ?_, ?_⟩ <;> rw [← hres]
  intro ik ib
  rfl

/-- C9 (amended): after a successful `set_bk`, provided the
Monkhorst-Pack grid components are nonzero and the k-point's `NNB`
lattice displacements are pairwise distinct (as in any well-formed
neighbour list — the property the counterexample violates), the map
`ib ↦ ib_unique_map[ik, ib]` is a bijection of the neighbour slots onto
the unique-b indices, and `bk_cart_unique[ib_unique_map[ik, ib]]` equals
`bk_cart[ik, ib]` exactly. -/
theorem c9_unique_map_invariant {NK NNB : ℕ} (inp : BkInput NK NNB)
    (solve : List M3 → List ℚ) (res : BkRes NK NNB)
    (hok : set_bk inp solve = .ok res)
    (hmp : ∀ c, inp.mp c ≠ 0) (ik : Fin NK)
    (hdist : ∀ ib1 ib2, bkLatt inp ik ib1 = bkLatt inp ik ib2 → ib1 = ib2) :
    Function.Bijective (res.ibUniqueMap ik) ∧
    ∀ ib, res.cartUnique.getD (res.ibUniqueMap ik ib) (fun _ => 0) = res.bkCart ik ib := by
  obtain ⟨hdet, hmem, hlen, hbc, hcu, hlu, hmap⟩ := set_bk_ok_elim inp solve res hok
  have hrec : ∀ ib, bkLatt2 inp ik ib = bkLatt inp ik ib :=
    fun ib => bkLatt2_eq inp hdet hmp ik ib
  have hmem1 : ∀ ib : Fin NNB, bkLatt inp ik ib ∈ uniq2 inp :=
    fun ib => hrec ib ▸ hmem ik ib
  have hinj : Function.Injective (res.ibUniqueMap ik) := by
    intro ib1 ib2 h
    have hv : (res.ibUniqueMap ik ib1 : ℕ) = res.ibUniqueMap ik ib2 := congrArg Fin.val h
    rw [hmap ik ib1, hmap ik ib2, hrec ib1, hrec ib2] at hv
    exact hdist ib1 ib2 ((List.indexOf_inj (hmem1 ib1) (hmem1 ib2)).mp hv)
  refine ⟨Finite.injective_iff_bijective.mp hinj, ?_⟩
  intro ib
  rw [hcu, hbc, bkCartF_eq]
  have hlt : List.indexOf (bkLatt inp ik ib) (uniq2 inp) < (uniq2 inp).length :=
    List.indexOf_lt_length.mpr (hmem1 ib)
  have hval : (res.ibUniqueMap ik ib : ℕ)
      = List.indexOf (bkLatt inp ik ib) (uniq2 inp) := by
    rw [hmap ik ib, hrec ib]
  unfold cartU2
  rw [hval, getD_eq_get _ _ (by rw [List.length_map]; exact hlt), List.get_map]
  have hget : (uniq2 inp).get ⟨List.indexOf (bkLatt inp ik ib) (uniq2 inp), hlt⟩
      = bkLatt inp ik ib := List.indexOf_get hlt
  rw [show ((uniq2 inp).get ⟨(List.indexOf (bkLatt inp ik ib) (uniq2 inp) : ℕ), hlt⟩)
      = bkLatt inp ik ib from hget]
  funext c
  unfold cartOf
  refine Finset.sum_congr rfl fun r _ => ?_
  ring

/-- A degenerate but parseable neighbour list: k-point 0 lists the same
displacement `+x/2` in both of its neighbour slots, k-point 1 lists
`+x/2` and `-x/2`; globally there are exactly `NNB = 2` distinct
displacements, so the unique-count assert passes. -/
def dupIn : BkInput 2 2 :=
  ⟨fun ik c => if ik = 1 ∧ c = 0 then 1/2 else 0,
   fun c => if c = 0 then 2 else 1,
   eye3,
   fun ik _ => if ik = 0 then 1 else 0,
   fun ik ib c => if ik = 1 ∧ ib = 0 ∧ c = 0 then 1 else 0,
   1 / 10 ^ 7, 10⟩

/-- An arbitrary concrete solver output for the degenerate input. -/
def dupSolve : List M3 → List ℚ := fun _ => [2]

unseal Rat.add Rat.mul Rat.inv Rat.sub in
/-- Counterexample for C9: on the degenerate input `dupIn` (with a
generous completeness tolerance) `set_bk` completes successfully, yet
`ib_unique_map[0, 0] = ib_unique_map[0, 1] = 1`, so the slot map at
k-point 0 is not a bijection. -/
theorem c9_counterexample :
    (set_bk dupIn dupSolve).toOption.map
      (fun r => (r.ibUniqueMap 0 0, r.ibUniqueMap 0 1)) = some (1, 1) := by
  decide

unseal Rat.add Rat.mul Rat.inv Rat.sub in
theorem cubic_map_lt : ∀ (ik : Fin 1) (ib : Fin 6),
    List.indexOf (bkLatt2 cubicIn ik ib) (uniq2 cubicIn) < 6 := by decide

/-- The result record that `set_bk` returns on the cubic input. -/
def cubicRes : BkRes 1 6 :=
  ⟨bkCartF cubicIn, wkF cubicIn cubicSolve, uniq2 cubicIn, cartU2 cubicIn,
   fun ik ib => ⟨List.indexOf (bkLatt2 cubicIn ik ib) (uniq2 cubicIn), cubic_map_lt ik ib⟩⟩

unseal Rat.add Rat.mul Rat.inv Rat.sub in
/-- Witness for the amended C9 at the cubic input: the unique-index map
is a bijection and the unique Cartesian catalogue reproduces `bk_cart`. -/
theorem c9_witness :
    Function.Bijective (cubicRes.ibUniqueMap 0) ∧
    ∀ ib, cubicRes.cartUnique.getD (cubicRes.ibUniqueMap 0 ib) (fun _ => 0) =
      cubicRes.bkCart 0 ib :=
  c9_unique_map_invariant cubicIn cubicSolve cubicRes (by decide) (by decide) 0 (by decide)
